import Mathlib

/-!
# Verification of the git-patch core pipeline

A shallow embedding of the three-stage pipeline of the `git-patch` tool:

* the selector resolver (`parseSelector`, `expandNumberSpec`),
* the unified-diff parser (`parseDiff` and its helpers), and
* the patch builder (`buildPatchFromHunks`, `buildPatchFromLines`).

JavaScript strings are modelled as `List Char` (`Str`); `null` becomes
`Option`; thrown errors become `Except String`; the module-level hunk-id
counter (reset at the start of every parse call) becomes a counter value
threaded explicitly through the per-file parsing step.
-/

/-- JavaScript strings are modelled as lists of characters. -/
abbrev Str := List Char

/-- Coerce a Lean string literal to the `Str` model. -/
def strOf (s : String) : Str := s.data

/-- Whitespace characters for JS `trim` / `\s`. -/
def wsChar (c : Char) : Bool :=
  c = ' ' || c = '\t' || c = '\n' || c = '\r' || c = '\x0b' || c = '\x0c'

/-- JS `String.prototype.trim`: strip whitespace from both ends. -/
def trimL (s : Str) : Str :=
  ((s.dropWhile wsChar).reverse.dropWhile wsChar).reverse

/-- JS `String.prototype.startsWith`. -/
def startsWithL (p s : Str) : Bool := p.isPrefixOf s

/-- JS `String.prototype.split` with a single-character separator. -/
def splitOnCh (c : Char) : Str → List Str
  | [] => [[]]
  | a :: rest =>
    if a = c then [] :: splitOnCh c rest
    else
      match splitOnCh c rest with
      | [] => [[a]]
      | h :: t => (a :: h) :: t

/-- A nonempty all-digit string (JS `/^\d+$/`). -/
def isDigitsL (s : Str) : Bool := !s.isEmpty && s.all (·.isDigit)

/-- Numeric value of a digit string (JS `Number` / `parseInt` on digits). -/
def natOfDigits (s : Str) : Nat :=
  s.foldl (fun n c => n * 10 + (c.toNat - '0'.toNat)) 0

/-- The resolved output of selector parsing. -/
inductive Selection where
  | hunks (ids : List Nat)
  | lines (hunkId : Nat) (lineIndices : List Nat)
deriving DecidableEq, Repr

/-- Match of the range regex `/^(\d+)\s*-\s*(\d+)$/`. -/
def matchRange (s : Str) : Option (Nat × Nat) :=
  let d1 := s.takeWhile (·.isDigit)
  let r1 := s.dropWhile (·.isDigit)
  if d1 = [] then none
  else
    match r1.dropWhile wsChar with
    | '-' :: r3 =>
      let r4 := r3.dropWhile wsChar
      let d2 := r4.takeWhile (·.isDigit)
      let r5 := r4.dropWhile (·.isDigit)
      if d2 = [] then none
      else if r5 = [] then some (natOfDigits d1, natOfDigits d2)
      else none
    | _ => none

/-- One iteration of the `expandNumberSpec` loop body (`selector.js` 37-55). -/
def expandToken (part0 : Str) : Except String (List Nat) :=
  let part := trimL part0
  if part = [] then .error "Invalid number: "
  else if part.contains '-' then
    match matchRange part with
    | none => .error ("Invalid range: " ++ String.mk part)
    | some (s, e) =>
      if s > e then .error ("Invalid range: " ++ String.mk part)
      else .ok (List.range' s (e - s + 1))
  else if isDigitsL part then .ok [natOfDigits part]
  else .error ("Invalid number: " ++ String.mk part)

/-- Expand the comma-separated parts of a number spec, failing at the
first bad token (`selector.js` 33-58). -/
def expandParts : List Str → Except String (List Nat)
  | [] => .ok []
  | p :: ps => do
    let v ← expandToken p
    let rest ← expandParts ps
    .ok (v ++ rest)

/-- `expandNumberSpec` from `selector.js`: split on commas and expand
every token. -/
def expandNumberSpec (spec : Str) : Except String (List Nat) :=
  expandParts (splitOnCh ',' spec)

/-- `parseSelector` from `selector.js`: hunk-level or line-level selector.
JS `str.split(":", 2)` keeps only the first two segments of the split. -/
def parseSelector (str : Str) : Except String Selection :=
  if str = [] then .error "No selector provided"
  else if str.contains ':' then
    let parts := splitOnCh ':' str
    let hunkPart := parts.headD []
    let linePart := parts.getD 1 []
    let trimmedHunkPart := trimL hunkPart
    if !isDigitsL trimmedHunkPart then
      .error ("Invalid hunk ID: " ++ String.mk hunkPart)
    else do
      let lns ← expandNumberSpec linePart
      .ok (.lines (natOfDigits trimmedHunkPart) lns)
  else do
    let ids ← expandNumberSpec str
    .ok (.hunks ids)

example : parseSelector (strOf "1") = .ok (.hunks [1]) := rfl
example : parseSelector (strOf "1,3,5") = .ok (.hunks [1, 3, 5]) := rfl
example : parseSelector (strOf "1-5") = .ok (.hunks [1, 2, 3, 4, 5]) := rfl
example : parseSelector (strOf "1-3,7,9") = .ok (.hunks [1, 2, 3, 7, 9]) := rfl
example : parseSelector (strOf "1:2-4") = .ok (.lines 1 [2, 3, 4]) := rfl
example : parseSelector (strOf "1:3,5,8") = .ok (.lines 1 [3, 5, 8]) := rfl
example : parseSelector (strOf "") = .error "No selector provided" := rfl
example : parseSelector (strOf "3-1") = .error "Invalid range: 3-1" := rfl
example : parseSelector (strOf "a-b") = .error "Invalid range: a-b" := rfl
example : parseSelector (strOf "x") = .error "Invalid number: x" := rfl
example : parseSelector (strOf "1,,2") = .error "Invalid number: " := rfl
example : parseSelector (strOf "x:1") = .error "Invalid hunk ID: x" := rfl
example : parseSelector (strOf "1:2:3") = .ok (.lines 1 [2]) := rfl
example : parseSelector (strOf " 1 :2") = .ok (.lines 1 [2]) := rfl

/-! ## Diff parser (`selector.js` 60-246, a.k.a. `diff-parser.js`) -/

/-- Classification of one physical line inside a hunk. -/
inductive LineType where
  | context | added | removed | noNewline
deriving DecidableEq, Repr

/-- One physical line inside a hunk. -/
structure DiffLine where
  type : LineType
  content : Str
  oldLine : Option Nat
  newLine : Option Nat
deriving DecidableEq, Repr

/-- A contiguous run of changed/context lines. -/
structure Hunk where
  id : Nat
  header : Str
  oldStart : Nat
  oldCount : Nat
  newStart : Nat
  newCount : Nat
  hunkContext : Option Str
  lines : List DiffLine
  addedCount : Nat
  removedCount : Nat
deriving DecidableEq, Repr

/-- One file's changes. -/
structure FileDiff where
  file : Option Str
  diffOldFile : Option Str
  diffNewFile : Option Str
  oldFile : Option Str
  newFile : Option Str
  metadataLines : List Str
  hunks : List Hunk
deriving DecidableEq, Repr

/-- Result of the hunk-header regex
`/^@@ -(\d+)(?:,(\d+))? \+(\d+)(?:,(\d+))? @@(.*)$/`. -/
structure HunkHeader where
  oldStart : Nat
  oldCount : Nat
  newStart : Nat
  newCount : Nat
  hunkContext : Option Str
  raw : Str
deriving DecidableEq, Repr

/-- Optional `,(\d+)` group after a count: take it when a nonempty digit
run follows the comma, otherwise leave the input in place (the regex
alternative without the group then requires a space, so a bare comma can
never match). -/
def optCommaCount (r : Str) : Option Str × Str :=
  match r with
  | ',' :: t =>
    let d := t.takeWhile (·.isDigit)
    if d = [] then (none, r) else (some d, t.dropWhile (·.isDigit))
  | _ => (none, r)

/-- `parseHunkHeader` from `selector.js` 77-90. -/
def parseHunkHeader (line : Str) : Option HunkHeader :=
  if startsWithL (strOf "@@ -") line then
    let s1 := line.drop 4
    let d1 := s1.takeWhile (·.isDigit)
    let r1 := s1.dropWhile (·.isDigit)
    if d1 = [] then none
    else
      let (oc, r2) := optCommaCount r1
      match r2 with
      | ' ' :: '+' :: s2 =>
        let d3 := s2.takeWhile (·.isDigit)
        let r3 := s2.dropWhile (·.isDigit)
        if d3 = [] then none
        else
          let (nc, r4) := optCommaCount r3
          match r4 with
          | ' ' :: '@' :: '@' :: rest =>
            some { oldStart := natOfDigits d1
                   oldCount := match oc with | some d => natOfDigits d | none => 1
                   newStart := natOfDigits d3
                   newCount := match nc with | some d => natOfDigits d | none => 1
                   hunkContext := if trimL rest = [] then none else some (trimL rest)
                   raw := line }
          | _ => none
      | _ => none
  else none

/-- `classifyLine` from `selector.js` 92-97. -/
def classifyLine (raw : Str) : LineType :=
  if startsWithL (strOf "+") raw then .added
  else if startsWithL (strOf "-") raw then .removed
  else if startsWithL (strOf "\\") raw then .noNewline
  else .context

/-- Last decomposition `s = x ++ " b/" ++ y` with `y ≠ []`, scanning from
the right (the greedy `(.+)` of the `diff --git` regex takes the longest
first group whose remainder still matches ` b\/(.+)$`). -/
def dgSplitAny : Str → Option (Str × Str)
  | [] => none
  | a :: rest =>
    match dgSplitAny rest with
    | some (x, y) => some (a :: x, y)
    | none =>
      if startsWithL (strOf " b/") (a :: rest) && (a :: rest).drop 3 ≠ [] then
        some ([], (a :: rest).drop 3)
      else none

/-- Match of `/^diff --git a\/(.+) b\/(.+)$/` on a line, returning the two
path groups. -/
def matchDiffGit (line : Str) : Option (Str × Str) :=
  if startsWithL (strOf "diff --git a/") line then
    match dgSplitAny (line.drop 13) with
    | some (x, y) => if x = [] then none else some (x, y)
    | none => none
  else none

/-- Recognized metadata-line prefixes (`selector.js` 125-137). -/
def metadataPrefixes : List Str :=
  [strOf "index ", strOf "old mode", strOf "new mode", strOf "new file",
   strOf "deleted file", strOf "similarity index", strOf "rename from",
   strOf "rename to", strOf "copy from", strOf "copy to", strOf "Binary files"]

/-- Whether a line is copied verbatim as file metadata. -/
def isMetadataLine (l : Str) : Bool := metadataPrefixes.any (startsWithL · l)

/-- Accumulated file-header fields during the header scan. -/
structure HeaderState where
  file : Option Str
  diffOldFile : Option Str
  diffNewFile : Option Str
  oldFile : Option Str
  newFile : Option Str
  metadataLines : List Str
deriving DecidableEq, Repr

/-- Initial (all-null) header state. -/
def initHeaderState : HeaderState := ⟨none, none, none, none, none, []⟩

/-- File-header scan (`selector.js` 110-159): classify header lines until
the first line starting with the hunk-range token, returning the state and
the unconsumed lines. -/
def scanHeader (st : HeaderState) : List Str → HeaderState × List Str
  | [] => (st, [])
  | l :: ls =>
    if startsWithL (strOf "diff --git") l then
      match matchDiffGit l with
      | some (m1, m2) =>
        scanHeader { st with
          diffOldFile := some (strOf "a/" ++ m1)
          diffNewFile := some (strOf "b/" ++ m2)
          oldFile := some (strOf "a/" ++ m1)
          newFile := some (strOf "b/" ++ m2)
          file := some m2 } ls
      | none => scanHeader st ls
    else if isMetadataLine l then
      scanHeader { st with metadataLines := st.metadataLines ++ [l] } ls
    else if startsWithL (strOf "--- ") l then
      scanHeader { st with oldFile := some (l.drop 4) } ls
    else if startsWithL (strOf "+++ ") l then
      let nf := l.drop 4
      let st1 := { st with newFile := some nf }
      let st2 := if startsWithL (strOf "b/") nf then { st1 with file := some (nf.drop 2) } else st1
      scanHeader st2 ls
    else if startsWithL (strOf "@@") l then (st, l :: ls)
    else scanHeader st ls

/-- Result of consuming one hunk's body lines. -/
structure BodyResult where
  lines : List DiffLine
  addedCount : Nat
  removedCount : Nat
  rest : List Str
deriving DecidableEq, Repr

/-- Hunk-body scan (`selector.js` 182-217): consume lines until the next
hunk-range line or end of fragment, numbering context/removed lines on the
old side and context/added lines on the new side; a single trailing empty
line is dropped. -/
def scanBody (o n : Nat) : List Str → BodyResult
  | [] => ⟨[], 0, 0, []⟩
  | l :: ls =>
    if startsWithL (strOf "@@") l then ⟨[], 0, 0, l :: ls⟩
    else if l = [] && ls = [] then ⟨[], 0, 0, []⟩
    else
      match classifyLine l with
      | .noNewline =>
        let res := scanBody o n ls
        ⟨⟨.noNewline, l, none, none⟩ :: res.lines, res.addedCount, res.removedCount, res.rest⟩
      | .context =>
        let res := scanBody (o + 1) (n + 1) ls
        ⟨⟨.context, l, some o, some n⟩ :: res.lines, res.addedCount, res.removedCount, res.rest⟩
      | .removed =>
        let res := scanBody (o + 1) n ls
        ⟨⟨.removed, l, some o, none⟩ :: res.lines, res.addedCount, res.removedCount + 1, res.rest⟩
      | .added =>
        let res := scanBody o (n + 1) ls
        ⟨⟨.added, l, none, some n⟩ :: res.lines, res.addedCount + 1, res.removedCount, res.rest⟩

/-- The unconsumed rest of a body scan is no longer than the input. -/
theorem scanBody_rest_le (o n : Nat) (ls : List Str) :
    (scanBody o n ls).rest.length ≤ ls.length := by
  induction ls generalizing o n with
  | nil => simp [scanBody]
  | cons l ls ih =>
    simp only [scanBody]
    split
    · simp
    · split
      · simp
      · split <;> simp <;> exact (ih _ _).trans (Nat.le_succ _)

/-- Fuel-indexed hunk scan: the fuel only bounds the loop (each step of
the source's while loop either discards one line or one hunk body, so any
fuel of at least the number of lines is enough); with sufficient fuel the
function satisfies exactly the source recurrence (`scanHunks_cons`). -/
def scanHunksF (fuel c : Nat) (ls0 : List Str) : List Hunk × Nat :=
  match fuel, ls0 with
  | _, [] => ([], c)
  | 0, _ :: _ => ([], c)
  | fuel + 1, l :: ls =>
    if startsWithL (strOf "@@") l then
      match parseHunkHeader l with
      | none => scanHunksF fuel c ls
      | some hdr =>
        let body := scanBody hdr.oldStart hdr.newStart ls
        let (hs, c2) := scanHunksF fuel (c + 1) body.rest
        ({ id := c + 1, header := hdr.raw, oldStart := hdr.oldStart, oldCount := hdr.oldCount,
           newStart := hdr.newStart, newCount := hdr.newCount, hunkContext := hdr.hunkContext,
           lines := body.lines, addedCount := body.addedCount,
           removedCount := body.removedCount } :: hs, c2)
    else scanHunksF fuel c ls

/-- Hunk scan (`selector.js` 162-231): find each parseable hunk-range line,
consume its body, and assign the next id from the threaded counter. -/
def scanHunks (c : Nat) (ls : List Str) : List Hunk × Nat := scanHunksF ls.length c ls

/-- The fuel does not matter as long as it covers the number of lines. -/
theorem scanHunksF_fuel (f1 : Nat) : ∀ (f2 c : Nat) (ls : List Str),
    ls.length ≤ f1 → ls.length ≤ f2 → scanHunksF f1 c ls = scanHunksF f2 c ls := by
  induction f1 with
  | zero =>
    intro f2 c ls h1 h2
    have hls : ls = [] := List.length_eq_zero.mp (Nat.le_zero.mp h1)
    subst hls
    cases f2 <;> rfl
  | succ f1 ih =>
    intro f2 c ls h1 h2
    cases ls with
    | nil => cases f2 <;> rfl
    | cons l ls =>
      cases f2 with
      | zero => simp at h2
      | succ f2 =>
        have h1a : ls.length ≤ f1 := by simp only [List.length_cons] at h1; omega
        have h2a : ls.length ≤ f2 := by simp only [List.length_cons] at h2; omega
        simp only [scanHunksF]
        by_cases hat : startsWithL (strOf "@@") l = true
        · simp only [hat, if_true]
          rcases hh : parseHunkHeader l with _ | hdr
          all_goals dsimp only
          · exact ih f2 c ls h1a h2a
          · have hb := scanBody_rest_le hdr.oldStart hdr.newStart ls
            rw [ih f2 (c + 1) (scanBody hdr.oldStart hdr.newStart ls).rest
              (by omega) (by omega)]
        · simp only [hat, Bool.false_eq_true, if_false]
          exact ih f2 c ls h1a h2a

/-- `scanHunks` satisfies the source recurrence: a non-header or
unparseable line is skipped, a parseable header consumes its body and
emits a hunk carrying the next id. -/
theorem scanHunks_cons (c : Nat) (l : Str) (ls : List Str) :
    scanHunks c (l :: ls) =
      (if startsWithL (strOf "@@") l then
        match parseHunkHeader l with
        | none => scanHunks c ls
        | some hdr =>
          let body := scanBody hdr.oldStart hdr.newStart ls
          let (hs, c2) := scanHunks (c + 1) body.rest
          ({ id := c + 1, header := hdr.raw, oldStart := hdr.oldStart, oldCount := hdr.oldCount,
             newStart := hdr.newStart, newCount := hdr.newCount, hunkContext := hdr.hunkContext,
             lines := body.lines, addedCount := body.addedCount,
             removedCount := body.removedCount } :: hs, c2)
      else scanHunks c ls) := by
  show scanHunksF (ls.length + 1) c (l :: ls) = _
  simp only [scanHunksF]
  by_cases hat : startsWithL (strOf "@@") l = true
  · simp only [hat, if_true]
    rcases hh : parseHunkHeader l with _ | hdr
    all_goals dsimp only
    · rfl
    · have hb := scanBody_rest_le hdr.oldStart hdr.newStart ls
      rw [scanHunksF_fuel ls.length (scanBody hdr.oldStart hdr.newStart ls).rest.length
        (c + 1) (scanBody hdr.oldStart hdr.newStart ls).rest (by omega) (Nat.le_refl _)]
      rfl
  · simp only [hat, Bool.false_eq_true, if_false]
    rfl

/-- `parseFileDiff` from `selector.js` 99-234, with the id counter passed
in and returned explicitly. -/
def parseFileDiff (c : Nat) (chunkLs : List Str) : FileDiff × Nat :=
  let (st, rest) := scanHeader initHeaderState chunkLs
  let (hs, c2) := scanHunks c rest
  ({ file := st.file, diffOldFile := st.diffOldFile, diffNewFile := st.diffNewFile,
     oldFile := st.oldFile, newFile := st.newFile, metadataLines := st.metadataLines,
     hunks := hs }, c2)

/-- Split raw text into physical lines (JS `chunk.split("\n")`). -/
def splitLines (s : Str) : List Str := splitOnCh '\n' s

/-- Whether a line begins a new per-file chunk (`/^(?=diff --git )/m`). -/
def isBoundary (l : Str) : Bool := startsWithL (strOf "diff --git ") l

/-- Group lines into per-file chunks: a group starts at every line carrying
the `diff --git ` token; the first group holds any lines before the first
such token. -/
def chunkify : List Str → List (List Str)
  | [] => [[]]
  | l :: ls =>
    match chunkify ls with
    | [] => [[]]
    | g :: gs => if isBoundary l then [] :: (l :: g) :: gs else (l :: g) :: gs

/-- Reattach the empty line that the string-level chunk split leaves at the
end of every chunk except the last (each non-final chunk ends with the
newline preceding the next `diff --git` line). -/
def appendEmpties : List (List Str) → List (List Str)
  | [] => []
  | [g] => [g]
  | g :: gs => (g ++ [[]]) :: appendEmpties gs

/-- A chunk survives JS `chunks.filter((c) => c.trim())` iff some line has
non-whitespace content. -/
def anyNonWS (g : List Str) : Bool := g.any (fun l => trimL l ≠ [])

/-- The per-file chunks of a raw diff, as line lists. -/
def diffChunks (raw : Str) : List (List Str) :=
  (appendEmpties (chunkify (splitLines raw))).filter anyNonWS

/-- Map `parseFileDiff` over the chunks, threading the id counter. -/
def parseChunkList (c : Nat) : List (List Str) → List FileDiff
  | [] => []
  | g :: gs =>
    let (fd, c2) := parseFileDiff c g
    fd :: parseChunkList c2 gs

/-- JS truthiness of a nullable string (`null` and `""` are falsy). -/
def jsTruthy (o : Option Str) : Bool :=
  match o with
  | some s => s ≠ []
  | none => false

/-- `parseDiff` before its final file filter. -/
def parseDiffPre (raw : Str) : List FileDiff :=
  if trimL raw = [] then [] else parseChunkList 0 (diffChunks raw)

/-- `parseDiff` from `selector.js` 236-245. -/
def parseDiff (raw : Str) : List FileDiff :=
  (parseDiffPre raw).filter (fun f => jsTruthy f.file && !f.hunks.isEmpty)

/-! ## Patch builder (`patch-builder.js`) -/

/-- Join lines with the newline character (JS `Array.prototype.join("\n")`). -/
def joinNL : List Str → Str
  | [] => []
  | [l] => l
  | l :: ls => l ++ '\n' :: joinNL ls

/-- JS `x || y` where `x` is a nullable string: `null` and `""` fall back. -/
def orF (a : Option Str) (b : Str) : Str :=
  match a with
  | some s => if s = [] then b else s
  | none => b

/-- JS template interpolation of a nullable string (`null` prints as the
text `null`). -/
def showOpt (o : Option Str) : Str :=
  match o with
  | some s => s
  | none => strOf "null"

/-- `buildFileHeader` from `patch-builder.js` 102-113. -/
def buildFileHeader (f : FileDiff) : Str :=
  let diffOldFile := orF f.diffOldFile (strOf "a/" ++ showOpt f.file)
  let diffNewFile := orF f.diffNewFile (strOf "b/" ++ showOpt f.file)
  let oldFile := orF f.oldFile diffOldFile
  let newFile := orF f.newFile diffNewFile
  joinNL ([strOf "diff --git " ++ diffOldFile ++ [' '] ++ diffNewFile]
    ++ f.metadataLines
    ++ [strOf "--- " ++ oldFile, strOf "+++ " ++ newFile])

/-- `formatHunk` from `patch-builder.js` 115-118. -/
def formatHunk (h : Hunk) : Str :=
  h.header ++ '\n' :: joinNL (h.lines.map (·.content))

/-- `buildPatchFromHunks` from `patch-builder.js` 8-22. -/
def buildPatchFromHunks (fileDiffs : List FileDiff) (hunkIds : List Nat) : Str :=
  let patches := fileDiffs.filterMap (fun f =>
    let selectedHunks := f.hunks.filter (fun h => hunkIds.contains h.id)
    if selectedHunks.isEmpty then none
    else some (buildFileHeader f ++ '\n' :: joinNL (selectedHunks.map formatHunk)))
  joinNL patches ++ ['\n']

/-- Locate the unique hunk with the given id across all files
(`patch-builder.js` 39-48). -/
def findHunk : List FileDiff → Nat → Option (FileDiff × Hunk)
  | [], _ => none
  | f :: fs, hid =>
    match f.hunks.find? (fun h => h.id = hid) with
    | some h => some (f, h)
    | none => findHunk fs hid

/-- Rewrite loop of `buildPatchFromLines` (`patch-builder.js` 52-78):
number only added/removed lines, keep selected ones, demote unselected
removals to context, drop unselected additions. -/
def rewriteAux (sel : List Nat) : Nat → List DiffLine → List DiffLine
  | _, [] => []
  | idx, l :: ls =>
    match l.type with
    | .context => l :: rewriteAux sel idx ls
    | .noNewline => l :: rewriteAux sel idx ls
    | .removed =>
      if sel.contains (idx + 1) then l :: rewriteAux sel (idx + 1) ls
      else { l with type := .context, content := ' ' :: l.content.drop 1 } :: rewriteAux sel (idx + 1) ls
    | .added =>
      if sel.contains (idx + 1) then l :: rewriteAux sel (idx + 1) ls
      else rewriteAux sel (idx + 1) ls

/-- Count recomputation of `buildPatchFromLines` (`patch-builder.js`
80-92): context counts toward both sides, removed toward old only, added
toward new only. -/
def countOldNew : List DiffLine → Nat × Nat
  | [] => (0, 0)
  | l :: ls =>
    let (o, n) := countOldNew ls
    match l.type with
    | .context => (o + 1, n + 1)
    | .removed => (o + 1, n)
    | .added => (o, n + 1)
    | .noNewline => (o, n)

/-- Decimal rendering of a number for rebuilt headers. -/
def natToStr (n : Nat) : Str := (toString n).data

/-- The rebuilt hunk-range header of `buildPatchFromLines`
(`patch-builder.js` 94-95). -/
def rebuiltHeader (oldStart oldCount newStart newCount : Nat) (ctx : Option Str) : Str :=
  strOf "@@ -" ++ natToStr oldStart ++ [','] ++ natToStr oldCount
    ++ strOf " +" ++ natToStr newStart ++ [','] ++ natToStr newCount ++ strOf " @@"
    ++ (match ctx with
        | some c => if c = [] then [] else ' ' :: c
        | none => [])

/-- Patch text emitted by `buildPatchFromLines` once the hunk is found and
its line list rewritten (`patch-builder.js` 94-99). -/
def renderLinesPatch (f : FileDiff) (h : Hunk) (newLines : List DiffLine) : Str :=
  let (oldCount, newCount) := countOldNew newLines
  buildFileHeader f ++ '\n'
    :: rebuiltHeader h.oldStart oldCount h.newStart newCount h.hunkContext ++ '\n'
    :: joinNL (newLines.map (·.content)) ++ ['\n']

/-- `buildPatchFromLines` from `patch-builder.js` 34-100.  The `_mode`
parameter is accepted and never read, exactly as in the source. -/
def buildPatchFromLines (fileDiffs : List FileDiff) (hunkId : Nat)
    (changeLineIndices : List Nat) (_mode : Str) : Except String Str :=
  match findHunk fileDiffs hunkId with
  | none => .error ("Hunk " ++ toString hunkId ++ " not found")
  | some (f, h) => .ok (renderLinesPatch f h (rewriteAux changeLineIndices 0 h.lines))

/-! ## Specification-side descriptions of the line rewrite -/

/-- Pair every hunk line with its 1-based change index: only added and
removed lines are numbered, in order; context and no-newline-marker lines
get no number. -/
def changeNumberedAux (i : Nat) : List DiffLine → List (DiffLine × Option Nat)
  | [] => []
  | l :: ls =>
    match l.type with
    | .context => (l, none) :: changeNumberedAux i ls
    | .noNewline => (l, none) :: changeNumberedAux i ls
    | .removed => (l, some (i + 1)) :: changeNumberedAux (i + 1) ls
    | .added => (l, some (i + 1)) :: changeNumberedAux (i + 1) ls

/-- Spec-side treatment of one numbered line: unnumbered lines are kept
unchanged; a selected change line is kept as-is; an unselected removed line
is demoted to a context line whose first character is a space with the rest
of its content unchanged; an unselected added line is omitted. -/
def specRewriteLine (sel : List Nat) (p : DiffLine × Option Nat) : List DiffLine :=
  match p with
  | (l, none) => [l]
  | (l, some k) =>
    match l.type with
    | .removed =>
      if sel.contains k then [l]
      else [{ l with type := .context, content := ' ' :: l.content.drop 1 }]
    | .added => if sel.contains k then [l] else []
    | _ => [l]

/-- Spec-side rewritten line list of `buildFromLines`. -/
def specRewrite (sel : List Nat) (ls : List DiffLine) : List DiffLine :=
  (changeNumberedAux 0 ls).flatMap (specRewriteLine sel)

/-- Number of hunk lines of one type. -/
def countType (t : LineType) (ls : List DiffLine) : Nat :=
  (ls.filter (fun l => l.type = t)).length

/-- Number of change lines (added or removed) of a hunk. -/
def changeLineCount (ls : List DiffLine) : Nat :=
  (ls.filter (fun l => l.type = .added || l.type = .removed)).length

/-- The one-pass rewrite loop of the builder equals the two-pass spec-side
description at every counter value. -/
theorem rewriteAux_eq_spec (sel : List Nat) (ls : List DiffLine) (i : Nat) :
    rewriteAux sel i ls = (changeNumberedAux i ls).flatMap (specRewriteLine sel) := by
  induction ls generalizing i with
  | nil => simp [rewriteAux, changeNumberedAux]
  | cons l ls ih =>
    rcases ht : l.type with _ | _ | _ | _ <;>
      simp [rewriteAux, changeNumberedAux, specRewriteLine, ht, ih] <;>
      split <;> simp

/-- `countOldNew` computes, on the old side, context plus removed lines
and, on the new side, context plus added lines. -/
theorem countOldNew_eq_countType (ls : List DiffLine) :
    countOldNew ls =
      (countType .context ls + countType .removed ls,
       countType .context ls + countType .added ls) := by
  induction ls with
  | nil => simp [countOldNew, countType]
  | cons l ls ih =>
    rcases ht : l.type with _ | _ | _ | _ <;>
      simp [countOldNew, countType, ht, ih, List.filter_cons] <;> omega

/-- With an empty selection every removed line is demoted to context and
every added line dropped, so the rewritten list holds exactly the original
context and removed lines, all as context. -/
theorem rewriteAux_nil_counts (ls : List DiffLine) (i : Nat) :
    countType .context (rewriteAux [] i ls) = countType .context ls + countType .removed ls ∧
    countType .removed (rewriteAux [] i ls) = 0 ∧
    countType .added (rewriteAux [] i ls) = 0 := by
  induction ls generalizing i with
  | nil => simp [rewriteAux, countType]
  | cons l ls ih =>
    rcases ht : l.type with _ | _ | _ | _
    · rcases ih i with ⟨h1, h2, h3⟩
      simp only [rewriteAux, ht, countType, List.filter_cons] at h1 h2 h3 ⊢
      simp [h1, h2, h3] <;> omega
    · rcases ih (i + 1) with ⟨h1, h2, h3⟩
      simp only [rewriteAux, ht, List.contains_nil, Bool.false_eq_true, if_false,
        countType, List.filter_cons] at h1 h2 h3 ⊢
      simp [h1, h2, h3] <;> omega
    · rcases ih (i + 1) with ⟨h1, h2, h3⟩
      simp only [rewriteAux, ht, List.contains_nil, Bool.false_eq_true, if_false,
        countType, List.filter_cons] at h1 h2 h3 ⊢
      simp [h1, h2, h3] <;> omega
    · rcases ih i with ⟨h1, h2, h3⟩
      simp only [rewriteAux, ht, countType, List.filter_cons] at h1 h2 h3 ⊢
      simp [h1, h2, h3] <;> omega

/-- The rewrite loop only consults selection membership at the indices of
the hunk's change lines. -/
theorem rewriteAux_congr (sel sel2 : List Nat) (ls : List DiffLine) (i : Nat)
    (h : ∀ k, i < k → k ≤ i + changeLineCount ls → sel.contains k = sel2.contains k) :
    rewriteAux sel i ls = rewriteAux sel2 i ls := by
  induction ls generalizing i with
  | nil => simp [rewriteAux]
  | cons l ls ih =>
    have hcc : ∀ t, l.type = t → changeLineCount (l :: ls) =
        (if t = .added ∨ t = .removed then changeLineCount ls + 1 else changeLineCount ls) := by
      intro t ht
      rcases t with _ | _ | _ | _ <;> simp [changeLineCount, List.filter_cons, ht]
    rcases ht : l.type with _ | _ | _ | _ <;> simp only [rewriteAux, ht]
    · exact congrArg _ (ih i (fun k hk1 hk2 => h k hk1 (by have := hcc _ ht; simp at this; omega)))
    · have hsel : sel.contains (i + 1) = sel2.contains (i + 1) := by
        have := hcc _ ht; simp at this
        exact h (i + 1) (by omega) (by omega)
      rw [hsel]
      have hrec := ih (i + 1) (fun k hk1 hk2 => by
        have := hcc _ ht; simp at this
        exact h k (by omega) (by omega))
      split <;> rw [hrec]
    · have hsel : sel.contains (i + 1) = sel2.contains (i + 1) := by
        have := hcc _ ht; simp at this
        exact h (i + 1) (by omega) (by omega)
      rw [hsel]
      have hrec := ih (i + 1) (fun k hk1 hk2 => by
        have := hcc _ ht; simp at this
        exact h k (by omega) (by omega))
      split <;> rw [hrec]
    · exact congrArg _ (ih i (fun k hk1 hk2 => h k hk1 (by have := hcc _ ht; simp at this; omega)))

/-! ## Concrete sample models used by witnesses and counterexamples -/

/-- A small hunk with one context, one removed and one added line. -/
def sampleHunk1 : Hunk :=
  { id := 1, header := strOf "@@ -1,2 +1,2 @@", oldStart := 1, oldCount := 2,
    newStart := 1, newCount := 2, hunkContext := none,
    lines := [⟨.context, strOf " ctx", some 1, some 1⟩,
              ⟨.removed, strOf "-old", some 2, none⟩,
              ⟨.added, strOf "+new", none, some 2⟩],
    addedCount := 1, removedCount := 1 }

/-- A one-file model around `sampleHunk1`. -/
def sampleFile1 : FileDiff :=
  { file := some (strOf "foo.js"), diffOldFile := some (strOf "a/foo.js"),
    diffNewFile := some (strOf "b/foo.js"), oldFile := some (strOf "a/foo.js"),
    newFile := some (strOf "b/foo.js"), metadataLines := [], hunks := [sampleHunk1] }

/-- A single-file model list. -/
def sampleFds : List FileDiff := [sampleFile1]

/-- C1: `buildFromLines` rewrites the located hunk's lines exactly as the
spec-side description: context and no-newline lines kept, change lines
numbered 1-based in order, selected lines kept, unselected removals
demoted to context with a space sigil, unselected additions omitted. -/
theorem claim_C1_lines_rewrite (fds : List FileDiff) (hunkId : Nat) (sel : List Nat)
    (mode : Str) (f : FileDiff) (h : Hunk) (hfind : findHunk fds hunkId = some (f, h)) :
    buildPatchFromLines fds hunkId sel mode
      = .ok (renderLinesPatch f h (specRewrite sel h.lines)) := by
  simp [buildPatchFromLines, hfind, specRewrite, rewriteAux_eq_spec]

/-- Witness for C1 at a concrete model: selecting change line 2 keeps the
added line and demotes the removed line. -/
theorem claim_C1_lines_rewrite_witness :
    buildPatchFromLines sampleFds 1 [2] (strOf "stage")
      = .ok (renderLinesPatch sampleFile1 sampleHunk1 (specRewrite [2] sampleHunk1.lines)) :=
  claim_C1_lines_rewrite sampleFds 1 [2] (strOf "stage") sampleFile1 sampleHunk1 rfl

/-- C2 (amended): the emitted hunk header is
`@@ -oldStart,oldCount +newStart,newCount @@` plus the original trailing
context, with `oldStart`/`newStart` taken unchanged from the hunk and the
counts recomputed from the rewritten list (context plus kept-removed on
the old side, context plus kept-added on the new side); with an empty
selection both counts equal the original number of context plus removed
lines (demoted removals still count on the new side, so `newCount` is not
the original context count alone). -/
theorem claim_C2_rebuilt_header (fds : List FileDiff) (hunkId : Nat) (sel : List Nat)
    (mode : Str) (f : FileDiff) (h : Hunk) (hfind : findHunk fds hunkId = some (f, h)) :
    (buildPatchFromLines fds hunkId sel mode
      = .ok (buildFileHeader f ++ '\n'
          :: rebuiltHeader h.oldStart
              (countType .context (rewriteAux sel 0 h.lines)
                + countType .removed (rewriteAux sel 0 h.lines))
              h.newStart
              (countType .context (rewriteAux sel 0 h.lines)
                + countType .added (rewriteAux sel 0 h.lines))
              h.hunkContext ++ '\n'
          :: joinNL ((rewriteAux sel 0 h.lines).map (·.content)) ++ ['\n']))
    ∧ (sel = [] →
        countType .context (rewriteAux sel 0 h.lines)
            + countType .removed (rewriteAux sel 0 h.lines)
          = countType .context h.lines + countType .removed h.lines
        ∧ countType .context (rewriteAux sel 0 h.lines)
            + countType .added (rewriteAux sel 0 h.lines)
          = countType .context h.lines + countType .removed h.lines) := by
  constructor
  · simp [buildPatchFromLines, hfind, renderLinesPatch, countOldNew_eq_countType]
  · rintro rfl
    rcases rewriteAux_nil_counts h.lines 0 with ⟨h1, h2, h3⟩
    omega

/-- Witness for C2 at a concrete model with an empty selection. -/
theorem claim_C2_rebuilt_header_witness :
    buildPatchFromLines sampleFds 1 [] (strOf "stage")
      = .ok (buildFileHeader sampleFile1 ++ '\n'
          :: rebuiltHeader sampleHunk1.oldStart
              (countType .context (rewriteAux [] 0 sampleHunk1.lines)
                + countType .removed (rewriteAux [] 0 sampleHunk1.lines))
              sampleHunk1.newStart
              (countType .context (rewriteAux [] 0 sampleHunk1.lines)
                + countType .added (rewriteAux [] 0 sampleHunk1.lines))
              sampleHunk1.hunkContext ++ '\n'
          :: joinNL ((rewriteAux [] 0 sampleHunk1.lines).map (·.content)) ++ ['\n'])
    ∧ (countType .context (rewriteAux [] 0 sampleHunk1.lines)
          + countType .added (rewriteAux [] 0 sampleHunk1.lines)
        = countType .context sampleHunk1.lines + countType .removed sampleHunk1.lines) :=
  ⟨(claim_C2_rebuilt_header sampleFds 1 [] (strOf "stage") sampleFile1 sampleHunk1 rfl).1,
   ((claim_C2_rebuilt_header sampleFds 1 [] (strOf "stage") sampleFile1 sampleHunk1 rfl).2 rfl).2⟩

/-- A context-plus-removal hunk used to refute the original C2 count claim. -/
def cxHunk : Hunk :=
  { id := 1, header := strOf "@@ -1,2 +1,2 @@", oldStart := 1, oldCount := 2,
    newStart := 1, newCount := 2, hunkContext := none,
    lines := [⟨.context, strOf " a", some 1, some 1⟩,
              ⟨.removed, strOf "-b", some 2, none⟩],
    addedCount := 0, removedCount := 1 }

/-- File wrapper around `cxHunk`. -/
def cxFile : FileDiff :=
  { file := some (strOf "x"), diffOldFile := some (strOf "a/x"),
    diffNewFile := some (strOf "b/x"), oldFile := some (strOf "a/x"),
    newFile := some (strOf "b/x"), metadataLines := [], hunks := [cxHunk] }

/-- Counterexample to C2 as stated: on a hunk with one context and one
removed line and an empty selection the emitted header says `+1,2`,
while the claim demands `newCount` equal to the original context count,
which is `1`. -/
theorem claim_C2_counterexample :
    buildPatchFromLines [cxFile] 1 [] (strOf "stage")
      = .ok (strOf "diff --git a/x b/x\n--- a/x\n+++ b/x\n@@ -1,2 +1,2 @@\n a\n b\n")
    ∧ countType .context cxHunk.lines = 1
    ∧ strOf "diff --git a/x b/x\n--- a/x\n+++ b/x\n@@ -1,2 +1,2 @@\n a\n b\n"
        ≠ strOf "diff --git a/x b/x\n--- a/x\n+++ b/x\n@@ -1,2 +1,1 @@\n a\n b\n" :=
  ⟨rfl, rfl, by decide⟩

/-- C9: the builder fails (with the hunk-not-found message, aborting with
no partial output) exactly when the hunk id is absent; when the hunk
exists the build succeeds and out-of-range indices are ignored: filtering
the selection to the hunk's change-line count never changes the output. -/
theorem claim_C9_hunk_not_found (fds : List FileDiff) (hunkId : Nat) (sel : List Nat)
    (mode : Str) :
    (findHunk fds hunkId = none →
      buildPatchFromLines fds hunkId sel mode
        = .error ("Hunk " ++ toString hunkId ++ " not found"))
    ∧ (∀ f h, findHunk fds hunkId = some (f, h) →
        (buildPatchFromLines fds hunkId sel mode).isOk = true
        ∧ buildPatchFromLines fds hunkId sel mode
            = buildPatchFromLines fds hunkId
                (sel.filter (fun n => decide (n ≤ changeLineCount h.lines))) mode) := by
  refine ⟨fun hn => by simp [buildPatchFromLines, hn], fun f h hfind => ⟨?_, ?_⟩⟩
  · simp [buildPatchFromLines, hfind, Except.isOk, Except.toBool]
  · simp only [buildPatchFromLines, hfind]
    have hrw : rewriteAux sel 0 h.lines
        = rewriteAux (sel.filter (fun n => decide (n ≤ changeLineCount h.lines))) 0 h.lines := by
      apply rewriteAux_congr
      intro k hk1 hk2
      simp only [Nat.zero_add] at hk2
      show List.elem k sel = List.elem k (sel.filter (fun n => decide (n ≤ changeLineCount h.lines)))
      by_cases hmem : k ∈ sel
      · have h2 : k ∈ sel.filter (fun n => decide (n ≤ changeLineCount h.lines)) :=
          List.mem_filter.mpr ⟨hmem, by simpa using hk2⟩
        rw [List.elem_iff.mpr hmem, List.elem_iff.mpr h2]
      · have h2 : k ∉ sel.filter (fun n => decide (n ≤ changeLineCount h.lines)) :=
          fun hc => hmem (List.mem_of_mem_filter hc)
        simp [List.elem_iff, hmem, h2]
    rw [hrw]

/-- Witness for C9: id 2 is absent and fails; id 1 with the out-of-range
index 5 succeeds and equals the filtered selection's output. -/
theorem claim_C9_hunk_not_found_witness :
    buildPatchFromLines sampleFds 2 [1] (strOf "stage") = .error "Hunk 2 not found"
    ∧ (buildPatchFromLines sampleFds 1 [5] (strOf "stage")).isOk = true
    ∧ buildPatchFromLines sampleFds 1 [5] (strOf "stage")
        = buildPatchFromLines sampleFds 1
            ([5].filter (fun n => decide (n ≤ changeLineCount sampleHunk1.lines))) (strOf "stage") :=
  ⟨(claim_C9_hunk_not_found sampleFds 2 [1] (strOf "stage")).1 rfl,
   ((claim_C9_hunk_not_found sampleFds 1 [5] (strOf "stage")).2 sampleFile1 sampleHunk1 rfl).1,
   ((claim_C9_hunk_not_found sampleFds 1 [5] (strOf "stage")).2 sampleFile1 sampleHunk1 rfl).2⟩

/-- C10: the `mode` argument of `buildPatchFromLines` is never read, so
the emitted patch text is identical for any two modes (staging and discard
patches for the same selection are the same text). -/
theorem claim_C10_mode_ignored (fds : List FileDiff) (hunkId : Nat) (sel : List Nat)
    (m1 m2 : Str) :
    buildPatchFromLines fds hunkId sel m1 = buildPatchFromLines fds hunkId sel m2 := rfl

/-! ## Selector claims -/

/-- `splitOnCh` never returns an empty list. -/
theorem splitOnCh_ne_nil (c : Char) (s : Str) : splitOnCh c s ≠ [] := by
  cases s with
  | nil => simp [splitOnCh]
  | cons a rest =>
    simp only [splitOnCh]
    split
    · simp
    · split <;> simp

/-- The first split segment is the run of characters before the first
separator. -/
theorem splitOnCh_headD (c : Char) (s : Str) :
    (splitOnCh c s).headD [] = s.takeWhile (fun x => decide (x ≠ c)) := by
  induction s with
  | nil => simp [splitOnCh]
  | cons a rest ih =>
    by_cases hac : a = c
    · subst hac
      simp only [splitOnCh, if_pos rfl]
      rw [List.takeWhile_cons_of_neg (by simp)]
      rfl
    · simp only [splitOnCh, if_neg hac]
      rcases hsp : splitOnCh c rest with _ | ⟨hd, t⟩
      · exact absurd hsp (splitOnCh_ne_nil c rest)
      · rw [hsp] at ih
        rw [List.takeWhile_cons_of_pos (by simpa using hac)]
        simpa using ih

/-- The second split segment is the run of characters between the first
and second separators. -/
theorem splitOnCh_getD_one (c : Char) (s : Str) (h : s.contains c = true) :
    (splitOnCh c s).getD 1 [] =
      ((s.dropWhile (fun x => decide (x ≠ c))).tail).takeWhile (fun x => decide (x ≠ c)) := by
  induction s with
  | nil => simp at h
  | cons a rest ih =>
    by_cases hac : a = c
    · subst hac
      simp only [splitOnCh, if_pos rfl, List.getD_cons_succ]
      rw [List.dropWhile_cons_of_neg (by simp)]
      rcases hsp : splitOnCh a rest with _ | ⟨hd, t⟩
      · exact absurd hsp (splitOnCh_ne_nil a rest)
      · have hh := splitOnCh_headD a rest
        rw [hsp] at hh
        simpa using hh
    · have hrest : rest.contains c = true := by
        simp only [List.contains_cons, Bool.or_eq_true, beq_iff_eq] at h
        rcases h with h | h
        · exact absurd h.symm hac
        · exact h
      simp only [splitOnCh, if_neg hac]
      rcases hsp : splitOnCh c rest with _ | ⟨hd, t⟩
      · exact absurd hsp (splitOnCh_ne_nil c rest)
      · rw [List.dropWhile_cons_of_pos (by simpa using hac)]
        have ih2 := ih hrest
        rw [hsp] at ih2
        simpa [List.getD_cons_succ] using ih2

/-- Counterexample to C5 as stated: in `"1:2:3"` the code keeps only the
segment between the first and second colons (JS `split(":", 2)`), so it
succeeds with lines `[2]`; under the claim `linePart` would be `"2:3"`,
whose number-spec expansion fails, so resolution would have to fail. -/
theorem claim_C5_counterexample :
    parseSelector (strOf "1:2:3") = .ok (.lines 1 [2])
    ∧ expandNumberSpec (strOf "2:3") = .error "Invalid number: 2:3"
    ∧ (Except.ok (Selection.lines 1 [2]) : Except String Selection)
        ≠ .error "Invalid number: 2:3" :=
  ⟨rfl, rfl, by simp⟩

/-- C5 (amended): for a selector containing a colon, `hunkPart` is the
text before the first colon and `linePart` the text between the first and
second colons (anything after a second colon is discarded); `hunkPart`
must be all digits after trimming or resolution fails with the
invalid-hunk-id error echoing the untrimmed part, and `linePart` is
expanded by the number-spec rule. -/
theorem claim_C5_colon_split (s : Str) (hcol : s.contains ':' = true) :
    parseSelector s =
      (if isDigitsL (trimL (s.takeWhile (fun x => decide (x ≠ ':')))) then
        match expandNumberSpec
            (((s.dropWhile (fun x => decide (x ≠ ':'))).tail).takeWhile (fun x => decide (x ≠ ':'))) with
        | .error e => .error e
        | .ok lns =>
          .ok (.lines (natOfDigits (trimL (s.takeWhile (fun x => decide (x ≠ ':'))))) lns)
      else .error ("Invalid hunk ID: " ++ String.mk (s.takeWhile (fun x => decide (x ≠ ':'))))) := by
  have hne : s ≠ [] := by
    intro hnil
    rw [hnil] at hcol
    simp at hcol
  have e1 := splitOnCh_headD ':' s
  have e2 := splitOnCh_getD_one ':' s hcol
  simp only [parseSelector, hne, hcol, if_false, if_true, e1, e2]
  by_cases hd : isDigitsL (trimL (s.takeWhile (fun x => decide (x ≠ ':')))) = true
  · simp only [hd, Bool.not_true, Bool.false_eq_true, if_false, if_true]
    rcases expandNumberSpec
        (((s.dropWhile (fun x => decide (x ≠ ':'))).tail).takeWhile (fun x => decide (x ≠ ':'))) with
        e | lns <;> rfl
  · simp only [Bool.not_eq_true] at hd
    simp only [hd, Bool.not_false, Bool.false_eq_true, if_false, if_true]

/-- Witness for C5 at the concrete selector `" 7 :2,4"`. -/
theorem claim_C5_colon_split_witness :
    parseSelector (strOf " 7 :2,4") =
      (if isDigitsL (trimL ((strOf " 7 :2,4").takeWhile (fun x => decide (x ≠ ':')))) then
        match expandNumberSpec
            ((((strOf " 7 :2,4").dropWhile (fun x => decide (x ≠ ':'))).tail).takeWhile
              (fun x => decide (x ≠ ':'))) with
        | .error e => .error e
        | .ok lns =>
          .ok (.lines (natOfDigits (trimL ((strOf " 7 :2,4").takeWhile (fun x => decide (x ≠ ':'))))) lns)
      else
        .error ("Invalid hunk ID: "
          ++ String.mk ((strOf " 7 :2,4").takeWhile (fun x => decide (x ≠ ':'))))) :=
  claim_C5_colon_split (strOf " 7 :2,4") (by decide)

/-- Spec-side token validity: a token with a hyphen must match the range
grammar with an ascending range; a token without a hyphen must be a
nonempty digit string. -/
def goodTok (t : Str) : Bool :=
  if t.contains '-' then
    match matchRange t with
    | some (s, e) => decide (s ≤ e)
    | none => false
  else isDigitsL t

/-- Spec-side expansion of a good token. -/
def tokVal (t : Str) : List Nat :=
  if t.contains '-' then
    match matchRange t with
    | some (s, e) => List.range' s (e - s + 1)
    | none => []
  else [natOfDigits t]

/-- Spec-side error message for a bad token: range errors for tokens with
a hyphen, number errors for the rest (including the empty token). -/
def tokMsg (t : Str) : String :=
  if t.contains '-' then "Invalid range: " ++ String.mk t
  else "Invalid number: " ++ String.mk t

/-- A good token expands to its value. -/
theorem expandToken_good (t : Str) (h : goodTok (trimL t) = true) :
    expandToken t = .ok (tokVal (trimL t)) := by
  unfold expandToken
  by_cases hnil : trimL t = []
  · rw [hnil] at h
    simp [goodTok, isDigitsL] at h
  · by_cases hdash : (trimL t).contains '-' = true
    · have hdm : '-' ∈ trimL t := by simpa using hdash
      rcases hm : matchRange (trimL t) with _ | ⟨s, e⟩
      · simp [goodTok, hdm, hm] at h
      · have hse : s ≤ e := by simpa [goodTok, hdm, hm] using h
        simp [hnil, hdm, hm, tokVal, (by omega : ¬ s > e)]
        omega
    · have hdm : '-' ∉ trimL t := by simpa using hdash
      have hdig : isDigitsL (trimL t) = true := by simpa [goodTok, hdm] using h
      simp [hnil, hdm, hdig, tokVal]

/-- A bad token produces its token-specific error. -/
theorem expandToken_bad (t : Str) (h : goodTok (trimL t) = false) :
    expandToken t = .error (tokMsg (trimL t)) := by
  unfold expandToken
  by_cases hnil : trimL t = []
  · rw [hnil]
    rfl
  · by_cases hdash : (trimL t).contains '-' = true
    · have hdm : '-' ∈ trimL t := by simpa using hdash
      rcases hm : matchRange (trimL t) with _ | ⟨s, e⟩
      · simp [hnil, hdm, hm, tokMsg]
      · have hse : ¬ s ≤ e := by
          intro hc
          rw [show goodTok (trimL t) = true by simp [goodTok, hdm, hm, hc]] at h
          simp at h
        simp [hnil, hdm, hm, tokMsg, (by omega : s > e)]
    · have hdm : '-' ∉ trimL t := by simpa using hdash
      have hdig : isDigitsL (trimL t) = false := by
        by_contra hc
        rw [Bool.not_eq_false] at hc
        rw [show goodTok (trimL t) = true by simp [goodTok, hdm, hc]] at h
        simp at h
      simp [hnil, hdm, hdig, tokMsg]

/-- A successful expansion means every (trimmed) token was good and the
result is the concatenation of every token's expansion. -/
theorem expandParts_ok (ps : List Str) (l : List Nat) (h : expandParts ps = .ok l) :
    (∀ t ∈ ps.map trimL, goodTok t = true) ∧ l = (ps.map trimL).flatMap tokVal := by
  induction ps generalizing l with
  | nil =>
    simp only [expandParts] at h
    cases h
    simp
  | cons p ps ih =>
    by_cases hg : goodTok (trimL p) = true
    · rw [expandParts, expandToken_good p hg] at h
      rcases hrec : expandParts ps with e | l2
      · rw [hrec] at h
        simp only [Bind.bind, Except.bind] at h
        exact Except.noConfusion h
      · rw [hrec] at h
        simp only [Bind.bind, Except.bind, Except.ok.injEq] at h
        rcases ih l2 hrec with ⟨h1, h2⟩
        refine ⟨?_, ?_⟩
        · intro t ht
          rw [List.map_cons] at ht
          rcases List.mem_cons.mp ht with rfl | ht2
          · exact hg
          · exact h1 t ht2
        · rw [← h, h2]
          simp
    · rw [expandParts, expandToken_bad p (by simpa using hg)] at h
      exact Except.noConfusion h

/-- If some prefix of tokens is good and the next token is bad, the whole
expansion fails with that token's error. -/
theorem expandParts_err (ps : List Str) (g : List Str) (bad : Str) (rest : List Str)
    (hsplit : ps.map trimL = g ++ bad :: rest) (hgood : ∀ t ∈ g, goodTok t = true)
    (hbad : goodTok bad = false) :
    expandParts ps = .error (tokMsg bad) := by
  induction ps generalizing g with
  | nil => simp at hsplit
  | cons p ps ih =>
    rcases g with _ | ⟨t0, g'⟩
    · simp only [List.map_cons, List.nil_append, List.cons.injEq] at hsplit
      have hb : trimL p = bad := hsplit.1
      rw [expandParts, expandToken_bad p (by rw [hb]; exact hbad), hb]
      rfl
    · simp only [List.map_cons, List.cons_append, List.cons.injEq] at hsplit
      have hg0 : goodTok (trimL p) = true := by
        rw [hsplit.1]
        exact hgood t0 (by simp)
      rw [expandParts, expandToken_good p hg0]
      rw [ih g' hsplit.2 (fun t ht => hgood t (by simp [ht]))]
      rfl

/-- Counterexample to C7 as stated: the non-digit token `a-b` fails with a
range error (its hyphen routes it through the range grammar), not with the
number error the claim prescribes for every non-digit token. -/
theorem claim_C7_counterexample :
    parseSelector (strOf "a-b") = .error "Invalid range: a-b"
    ∧ ("Invalid range: a-b" : String) ≠ "Invalid number: a-b" :=
  ⟨rfl, by decide⟩

/-- C7 (amended): number-spec expansion never returns a partial result:
it succeeds iff every trimmed comma token is good (all digits, or an
ascending digits-hyphen-digits range), returning the full expansion of
every token; at the first bad token it fails with that token's message —
a range error when the token contains a hyphen (malformed or descending
ranges alike), a number error otherwise (including the empty token). -/
theorem claim_C7_number_spec_errors (spec : Str) :
    (∀ l, expandNumberSpec spec = .ok l →
      (∀ t ∈ (splitOnCh ',' spec).map trimL, goodTok t = true)
      ∧ l = ((splitOnCh ',' spec).map trimL).flatMap tokVal)
    ∧ (∀ g bad rest, (splitOnCh ',' spec).map trimL = g ++ bad :: rest →
        (∀ t ∈ g, goodTok t = true) → goodTok bad = false →
        expandNumberSpec spec = .error (tokMsg bad)) :=
  ⟨fun l hl => expandParts_ok (splitOnCh ',' spec) l hl,
   fun g bad rest hsplit hgood hbad =>
     expandParts_err (splitOnCh ',' spec) g bad rest hsplit hgood hbad⟩

/-- Witness for C7: a good spec expands fully; a spec with a bad middle
token fails with that token's error. -/
theorem claim_C7_number_spec_errors_witness :
    ((∀ t ∈ (splitOnCh ',' (strOf "1,3-5")).map trimL, goodTok t = true)
      ∧ [1, 3, 4, 5] = ((splitOnCh ',' (strOf "1,3-5")).map trimL).flatMap tokVal)
    ∧ expandNumberSpec (strOf "1,x,3") = .error (tokMsg (strOf "x")) :=
  ⟨(claim_C7_number_spec_errors (strOf "1,3-5")).1 [1, 3, 4, 5] rfl,
   (claim_C7_number_spec_errors (strOf "1,x,3")).2 [strOf "1"] (strOf "x") [strOf "3"]
     rfl (by decide) rfl⟩

/-! ## Patch-from-hunks claims -/

/-- Spec-side per-file block of `buildFromHunks`: the file header followed
by each kept hunk's original header and lines; files with no surviving
hunk produce no block. -/
def fileBlock (hunkIds : List Nat) (f : FileDiff) : Option Str :=
  let selectedHunks := f.hunks.filter (fun h => hunkIds.contains h.id)
  if selectedHunks.isEmpty then none
  else some (buildFileHeader f ++ '\n' :: joinNL (selectedHunks.map formatHunk))

/-- A hunk used by the C6 counterexample, first file. -/
def c6Hunk1 : Hunk :=
  { id := 1, header := strOf "@@ -1 +1 @@", oldStart := 1, oldCount := 1,
    newStart := 1, newCount := 1, hunkContext := none,
    lines := [⟨.removed, strOf "-a", some 1, none⟩, ⟨.added, strOf "+b", none, some 1⟩],
    addedCount := 1, removedCount := 1 }

/-- A hunk used by the C6 counterexample, second file. -/
def c6Hunk2 : Hunk :=
  { id := 2, header := strOf "@@ -1 +1 @@", oldStart := 1, oldCount := 1,
    newStart := 1, newCount := 1, hunkContext := none,
    lines := [⟨.removed, strOf "-c", some 1, none⟩, ⟨.added, strOf "+d", none, some 1⟩],
    addedCount := 1, removedCount := 1 }

/-- First file of the C6 model. -/
def c6File1 : FileDiff :=
  { file := some (strOf "x"), diffOldFile := some (strOf "a/x"),
    diffNewFile := some (strOf "b/x"), oldFile := some (strOf "a/x"),
    newFile := some (strOf "b/x"), metadataLines := [], hunks := [c6Hunk1] }

/-- Second file of the C6 model. -/
def c6File2 : FileDiff :=
  { file := some (strOf "y"), diffOldFile := some (strOf "a/y"),
    diffNewFile := some (strOf "b/y"), oldFile := some (strOf "a/y"),
    newFile := some (strOf "b/y"), metadataLines := [], hunks := [c6Hunk2] }

/-- Counterexample to C6 as stated: with two surviving files the emitted
text joins the blocks with a single newline — the second `diff --git`
line immediately follows the last line of the first block, with no blank
(empty) line between the blocks as the claim requires. -/
theorem claim_C6_counterexample :
    buildPatchFromHunks [c6File1, c6File2] [1, 2]
      = strOf "diff --git a/x b/x\n--- a/x\n+++ b/x\n@@ -1 +1 @@\n-a\n+b\ndiff --git a/y b/y\n--- a/y\n+++ b/y\n@@ -1 +1 @@\n-c\n+d\n"
    ∧ strOf "diff --git a/x b/x\n--- a/x\n+++ b/x\n@@ -1 +1 @@\n-a\n+b\ndiff --git a/y b/y\n--- a/y\n+++ b/y\n@@ -1 +1 @@\n-c\n+d\n"
        ≠ strOf "diff --git a/x b/x\n--- a/x\n+++ b/x\n@@ -1 +1 @@\n-a\n+b\n\ndiff --git a/y b/y\n--- a/y\n+++ b/y\n@@ -1 +1 @@\n-c\n+d\n" :=
  ⟨rfl, by decide⟩

/-- C6 (amended): when two or more files retain a selected hunk, the
emitted patch is the first per-file block, a single newline, the joined
remaining blocks (each separated by a single newline, no empty line), and
a single trailing newline appended at the end. -/
theorem claim_C6_blocks_single_newline (fds : List FileDiff) (hunkIds : List Nat)
    (b1 b2 : Str) (bs : List Str)
    (hblocks : fds.filterMap (fileBlock hunkIds) = b1 :: b2 :: bs) :
    buildPatchFromHunks fds hunkIds = b1 ++ '\n' :: joinNL (b2 :: bs) ++ ['\n'] := by
  have hfm : buildPatchFromHunks fds hunkIds
      = joinNL (fds.filterMap (fileBlock hunkIds)) ++ ['\n'] := rfl
  rw [hfm, hblocks]
  rfl

/-- Witness for C6 at the two-file model. -/
theorem claim_C6_blocks_single_newline_witness :
    buildPatchFromHunks [c6File1, c6File2] [1, 2]
      = strOf "diff --git a/x b/x\n--- a/x\n+++ b/x\n@@ -1 +1 @@\n-a\n+b"
          ++ '\n' :: joinNL [strOf "diff --git a/y b/y\n--- a/y\n+++ b/y\n@@ -1 +1 @@\n-c\n+d"]
          ++ ['\n'] :=
  claim_C6_blocks_single_newline [c6File1, c6File2] [1, 2]
    (strOf "diff --git a/x b/x\n--- a/x\n+++ b/x\n@@ -1 +1 @@\n-a\n+b")
    (strOf "diff --git a/y b/y\n--- a/y\n+++ b/y\n@@ -1 +1 @@\n-c\n+d") [] rfl

/-- C8: any run of lines none of which parses as a hunk header — in
particular lines starting with the hunk-range token `@@` that fail the
header grammar — is skipped by the hunk scan without aborting: the hunks
parsed after such a run are exactly the hunks parsed without it. -/
theorem claim_C8_malformed_markers_skipped (junk rest : List Str) (c : Nat)
    (hjunk : ∀ l ∈ junk, parseHunkHeader l = none) :
    scanHunks c (junk ++ rest) = scanHunks c rest := by
  induction junk with
  | nil => simp
  | cons j js ih =>
    have hj : parseHunkHeader j = none := hjunk j (by simp)
    have hrec : scanHunks c (js ++ rest) = scanHunks c rest :=
      ih (fun l hl => hjunk l (by simp [hl]))
    rw [List.cons_append, scanHunks_cons]
    by_cases hat : startsWithL (strOf "@@") j = true
    · simp only [hat, if_true, hj]
      exact hrec
    · simp only [hat, Bool.false_eq_true, if_false]
      exact hrec

/-- Witness for C8: a malformed `@@` marker and a stray line before a real
hunk header do not change the scan result. -/
theorem claim_C8_malformed_markers_skipped_witness :
    scanHunks 0 ([strOf "@@ not-a-real-hunk @@", strOf "interstitial"]
        ++ [strOf "@@ -1 +1 @@", strOf "-old", strOf "+new"])
      = scanHunks 0 [strOf "@@ -1 +1 @@", strOf "-old", strOf "+new"] :=
  claim_C8_malformed_markers_skipped [strOf "@@ not-a-real-hunk @@", strOf "interstitial"]
    [strOf "@@ -1 +1 @@", strOf "-old", strOf "+new"] 0 (by decide)

/-! ## Hunk id numbering (C4) -/

/-- The hunk scan assigns consecutive ids from the threaded counter:
the ids are `c+1, c+2, ...` in encounter order and the returned counter is
the input plus the number of hunks found. -/
theorem scanHunksF_ids (f : Nat) : ∀ (c : Nat) (ls : List Str), ls.length ≤ f →
    (scanHunksF f c ls).1.map (·.id) = List.range' (c + 1) (scanHunksF f c ls).1.length
    ∧ (scanHunksF f c ls).2 = c + (scanHunksF f c ls).1.length := by
  induction f with
  | zero =>
    intro c ls h
    have hls : ls = [] := List.length_eq_zero.mp (Nat.le_zero.mp h)
    subst hls
    simp [scanHunksF]
  | succ f ih =>
    intro c ls h
    cases ls with
    | nil => simp [scanHunksF]
    | cons l ls =>
      have ha : ls.length ≤ f := by simp only [List.length_cons] at h; omega
      simp only [scanHunksF]
      by_cases hat : startsWithL (strOf "@@") l = true
      · simp only [hat, if_true]
        rcases hh : parseHunkHeader l with _ | hdr
        all_goals dsimp only
        · exact ih c ls ha
        · have hb := scanBody_rest_le hdr.oldStart hdr.newStart ls
          have ihr := ih (c + 1) (scanBody hdr.oldStart hdr.newStart ls).rest (by omega)
          rcases hsc : scanHunksF f (c + 1) (scanBody hdr.oldStart hdr.newStart ls).rest
            with ⟨hs, c2⟩
          rw [hsc] at ihr
          simp only at ihr
          simp only [hsc, List.map_cons, List.length_cons]
          constructor
          · rw [ihr.1, List.range'_succ]
          · have := ihr.2
            omega
      · simp only [hat, Bool.false_eq_true, if_false]
        exact ih c ls ha

/-- The hunk scan assigns consecutive ids from the threaded counter:
the ids are `c+1, c+2, ...` in encounter order and the returned counter is
the input plus the number of hunks found. -/
theorem scanHunks_ids (c : Nat) (ls : List Str) :
    (scanHunks c ls).1.map (·.id) = List.range' (c + 1) (scanHunks c ls).1.length
    ∧ (scanHunks c ls).2 = c + (scanHunks c ls).1.length :=
  scanHunksF_ids ls.length c ls (Nat.le_refl _)

/-- Per-file parsing assigns its hunks the ids `c+1, ...` in order and
advances the counter by the number of hunks. -/
theorem parseFileDiff_ids (c : Nat) (g : List Str) :
    (parseFileDiff c g).1.hunks.map (·.id)
        = List.range' (c + 1) (parseFileDiff c g).1.hunks.length
    ∧ (parseFileDiff c g).2 = c + (parseFileDiff c g).1.hunks.length := by
  unfold parseFileDiff
  rcases hsh : scanHeader initHeaderState g with ⟨st, rest⟩
  have hids := scanHunks_ids c rest
  rcases hsc : scanHunks c rest with ⟨hs, c2⟩
  rw [hsc] at hids
  simp only [hsh, hsc]
  simpa using hids

/-- Threaded over the chunk list, the ids of all produced hunks (across
all files, in encounter order) are exactly `c+1, c+2, ...`. -/
theorem parseChunkList_ids (c : Nat) (gs : List (List Str)) :
    (parseChunkList c gs).flatMap (fun f => f.hunks.map (·.id))
      = List.range' (c + 1) (((parseChunkList c gs).flatMap (fun f => f.hunks)).length) := by
  induction gs generalizing c with
  | nil => simp [parseChunkList]
  | cons g gs ih =>
    rw [parseChunkList]
    rcases hpf : parseFileDiff c g with ⟨fd, c2⟩
    have hids := parseFileDiff_ids c g
    rw [hpf] at hids
    simp only at hids
    rcases hids with ⟨h1, h2⟩
    simp only [List.flatMap_cons, List.length_append, h1]
    rw [ih c2, h2]
    have happ := List.range'_append (c + 1) fd.hunks.length
      (((parseChunkList (c + fd.hunks.length) gs).flatMap (fun f => f.hunks)).length) 1
    rw [show c + fd.hunks.length + 1 = c + 1 + 1 * fd.hunks.length by omega]
    rw [happ]
    congr 1
    omega

/-- `flatMap` over a filtered list is a sublist of `flatMap` over the
whole list. -/
theorem flatMap_filter_sublist {α β : Type} (p : α → Bool) (f : α → List β) (l : List α) :
    List.Sublist ((l.filter p).flatMap f) (l.flatMap f) := by
  induction l with
  | nil => simp
  | cons a l ih =>
    by_cases hp : p a = true
    · simpa [List.filter_cons, hp] using List.Sublist.append_left ih (f a)
    · simp only [List.filter_cons, hp, Bool.false_eq_true, if_false, List.flatMap_cons]
      exact ih.trans (List.sublist_append_right (f a) _)

/-- A diff text whose first file section has parseable hunks but no
recognized display path (its `+++` value has no `b/` prefix): the section
is dropped but its hunk consumed id 1, so the returned ids start at 2. -/
def rawC4 : Str :=
  strOf "--- x\n+++ y\n@@ -1 +1 @@\n-a\ndiff --git a/f b/f\n--- a/f\n+++ b/f\n@@ -1 +1 @@\n-z\n"

/-- Counterexample to C4 as stated: on `rawC4` the single returned hunk
has id 2, so the result ids are not `1, ..., n`. -/
theorem claim_C4_counterexample :
    (parseDiff rawC4).flatMap (fun f => f.hunks.map (·.id)) = [2]
    ∧ ([2] : List Nat) ≠ List.range' 1 ([2] : List Nat).length :=
  ⟨rfl, by decide⟩

/-- C4 (amended): within one parse call ids are assigned `1, 2, ...` in
encounter order over every hunk the parser meets — including hunks inside
file sections later dropped for lacking a display path — so the ids of
the returned hunks form a sublist of `1, ..., N` (hence positive, unique
across the whole document, and strictly increasing in encounter order);
they are exactly `1, ..., n` when no hunk-bearing section is dropped.
Parsing starts its counter afresh each call, so no earlier call can
influence the ids. -/
theorem claim_C4_hunk_ids (raw : Str) :
    ((parseDiffPre raw).flatMap (fun f => f.hunks.map (·.id))
        = List.range' 1 (((parseDiffPre raw).flatMap (fun f => f.hunks)).length))
    ∧ List.Sublist ((parseDiff raw).flatMap (fun f => f.hunks.map (·.id)))
        (List.range' 1 (((parseDiffPre raw).flatMap (fun f => f.hunks)).length))
    ∧ List.Chain' (· < ·) ((parseDiff raw).flatMap (fun f => f.hunks.map (·.id)))
    ∧ ∀ i ∈ (parseDiff raw).flatMap (fun f => f.hunks.map (·.id)), 0 < i := by
  have hpre : (parseDiffPre raw).flatMap (fun f => f.hunks.map (·.id))
      = List.range' 1 (((parseDiffPre raw).flatMap (fun f => f.hunks)).length) := by
    unfold parseDiffPre
    by_cases ht : trimL raw = []
    · simp [ht]
    · simp only [ht, if_false]
      simpa using parseChunkList_ids 0 (diffChunks raw)
  have hsub : List.Sublist ((parseDiff raw).flatMap (fun f => f.hunks.map (·.id)))
      (List.range' 1 (((parseDiffPre raw).flatMap (fun f => f.hunks)).length)) := by
    rw [← hpre]
    exact flatMap_filter_sublist _ _ _
  refine ⟨hpre, hsub, ?_, ?_⟩
  · exact List.Pairwise.chain'
      (List.Pairwise.sublist hsub (List.pairwise_lt_range' 1 _))
  · intro i hi
    have := hsub.subset hi
    exact (List.mem_range'_1.mp this).1

/-- Witness for C4: on `rawC4` the surviving hunk id 2 is positive. -/
theorem claim_C4_hunk_ids_witness : 0 < 2 :=
  (claim_C4_hunk_ids rawC4).2.2.2 2 (by decide)

/-! ## Round-trip (C3): utility lemmas -/

/-- A list is a prefix of itself followed by anything. -/
theorem startsWithL_append (p rest : Str) : startsWithL p (p ++ rest) = true :=
  List.isPrefixOf_iff_prefix.mpr (List.prefix_append p rest)

/-- A string starting with `p` is `p` followed by the rest. -/
theorem startsWithL_decompose (p s : Str) (h : startsWithL p s = true) :
    s = p ++ s.drop p.length := by
  rcases List.isPrefixOf_iff_prefix.mp h with ⟨t, rfl⟩
  rw [List.drop_left]

/-- Whether `pat` occurs as a contiguous substring. -/
def hasSub (pat s : Str) : Bool := s.tails.any (startsWithL pat)

/-- A string with a leading non-whitespace character trims to something
nonempty. -/
theorem trimL_cons_ne_nil (c : Char) (rest : Str) (hc : wsChar c = false) :
    trimL (c :: rest) ≠ [] := by
  unfold trimL
  rw [List.dropWhile_cons_of_neg (by simp [hc])]
  intro hcon
  have : (c :: rest).reverse.dropWhile wsChar = [] := by
    simpa using congrArg List.reverse hcon
  have hmem : c ∈ (c :: rest).reverse := by simp
  rcases List.dropWhile_eq_nil_iff.mp this c hmem with hws
  simp [hc] at hws

/-- `splitOnCh` of a separator-free string is that string alone. -/
theorem splitOnCh_no_sep (c : Char) (s : Str) (h : c ∉ s) : splitOnCh c s = [s] := by
  induction s with
  | nil => rfl
  | cons a rest ih =>
    have hac : a ≠ c := fun hx => h (by simp [hx])
    simp only [splitOnCh, hac, if_false]
    rw [ih (fun hx => h (by simp [hx]))]

/-- Splitting at the first separator after a separator-free prefix. -/
theorem splitOnCh_append_sep (c : Char) (xs ys : Str) (h : c ∉ xs) :
    splitOnCh c (xs ++ c :: ys) = xs :: splitOnCh c ys := by
  induction xs with
  | nil => simp [splitOnCh]
  | cons a xs ih =>
    have hac : a ≠ c := fun hx => h (by simp [hx])
    show splitOnCh c (a :: (xs ++ c :: ys)) = (a :: xs) :: splitOnCh c ys
    simp only [splitOnCh, hac, if_false]
    rw [ih (fun hx => h (by simp [hx]))]

/-- A trailing separator contributes one empty final segment. -/
theorem splitOnCh_append_last (c : Char) (s : Str) :
    splitOnCh c (s ++ [c]) = splitOnCh c s ++ [[]] := by
  induction s with
  | nil => simp [splitOnCh]
  | cons a rest ih =>
    by_cases hac : a = c
    · subst hac
      show splitOnCh a (a :: (rest ++ [a])) = splitOnCh a (a :: rest) ++ [[]]
      simp only [splitOnCh, if_pos rfl]
      rw [ih]
      rfl
    · show splitOnCh c (a :: (rest ++ [c])) = splitOnCh c (a :: rest) ++ [[]]
      simp only [splitOnCh, hac, if_false]
      rcases hsp : splitOnCh c rest with _ | ⟨hd, t⟩
      · exact absurd hsp (splitOnCh_ne_nil c rest)
      · rw [ih, hsp]
        rfl

/-- `joinNL` distributes over list append (nonempty sides). -/
theorem joinNL_append (xs ys : List Str) (hx : xs ≠ []) (hy : ys ≠ []) :
    joinNL (xs ++ ys) = joinNL xs ++ '\n' :: joinNL ys := by
  induction xs with
  | nil => simp at hx
  | cons x xs ih =>
    cases xs with
    | nil =>
      cases ys with
      | nil => simp at hy
      | cons y ys => simp [joinNL]
    | cons x2 xs2 =>
      have h2 := ih (by simp)
      show x ++ '\n' :: joinNL (x2 :: (xs2 ++ ys))
          = (x ++ '\n' :: joinNL (x2 :: xs2)) ++ '\n' :: joinNL ys
      rw [show joinNL (x2 :: (xs2 ++ ys)) = joinNL (x2 :: xs2) ++ '\n' :: joinNL ys from h2]
      simp

/-- Splitting the newline-join of newline-free lines recovers the lines. -/
theorem splitOnCh_joinNL (ls : List Str) (hne : ls ≠ [])
    (h : ∀ l ∈ ls, '\n' ∉ l) : splitOnCh '\n' (joinNL ls) = ls := by
  induction ls with
  | nil => simp at hne
  | cons l ls ih =>
    cases ls with
    | nil => exact splitOnCh_no_sep '\n' l (h l (by simp))
    | cons l2 ls2 =>
      have hstep : joinNL (l :: l2 :: ls2) = l ++ '\n' :: joinNL (l2 :: ls2) := by
        simp [joinNL]
      rw [hstep, splitOnCh_append_sep '\n' l _ (h l (by simp))]
      rw [ih (by simp) (fun x hx => h x (by simp [hx]))]

/-- `hasSub` unfolds on a cons cell. -/
theorem hasSub_cons (pat : Str) (a : Char) (rest : Str) :
    hasSub pat (a :: rest) = (startsWithL pat (a :: rest) || hasSub pat rest) := by
  simp [hasSub, List.tails]

/-- Without any occurrence of ` b/`, the greedy split finds nothing. -/
theorem dgSplitAny_none (s : Str) (h : hasSub (strOf " b/") s = false) :
    dgSplitAny s = none := by
  induction s with
  | nil => rfl
  | cons a rest ih =>
    rw [hasSub_cons] at h
    rcases Bool.or_eq_false_iff.mp h with ⟨h1, h2⟩
    rw [dgSplitAny, ih h2]
    simp [h1]

/-- Unfold `startsWithL` on two cons cells. -/
theorem startsWithL_cons₂ (a b : Char) (p s : Str) :
    startsWithL (a :: p) (b :: s) = (a == b && startsWithL p s) := by
  simp [startsWithL, List.isPrefixOf_cons₂]

/-- A prefix whose first character differs never matches. -/
theorem startsWithL_head_ne (a b : Char) (p s : Str) (h : (a == b) = false) :
    startsWithL (a :: p) (b :: s) = false := by
  simp only [startsWithL, List.isPrefixOf_cons₂, h, Bool.false_and]

/-- Prefixing `b/` to a ` b/`-free string keeps it ` b/`-free. -/
theorem hasSub_bslash (m2 : Str) (h : hasSub (strOf " b/") m2 = false) :
    hasSub (strOf " b/") ('b' :: '/' :: m2) = false := by
  rw [hasSub_cons, hasSub_cons, h]
  rw [show strOf " b/" = [' ', 'b', '/'] from rfl]
  rw [startsWithL_head_ne ' ' 'b' _ _ (by decide), startsWithL_head_ne ' ' '/' _ _ (by decide)]
  rfl

/-- The greedy ` b/` split of `m1 ++ " b/" ++ m2` recovers the two path
groups when `m2` is nonempty and contains no further ` b/`. -/
theorem dgSplitAny_append (m1 m2 : Str) (hm2 : m2 ≠ [])
    (hsub : hasSub (strOf " b/") m2 = false) :
    dgSplitAny (m1 ++ ' ' :: 'b' :: '/' :: m2) = some (m1, m2) := by
  induction m1 with
  | nil =>
    rw [List.nil_append, dgSplitAny, dgSplitAny_none _ (hasSub_bslash m2 hsub)]
    have hsw : startsWithL (strOf " b/") (' ' :: 'b' :: '/' :: m2) = true := by
      rw [show (' ' :: 'b' :: '/' :: m2) = strOf " b/" ++ m2 from rfl]
      exact startsWithL_append _ _
    rw [if_pos (by rw [hsw]; simpa using hm2)]
    rfl
  | cons a m1 ih =>
    rw [List.cons_append, dgSplitAny, ih]

/-- The rebuilt `diff --git` line re-matches with the same two groups. -/
theorem matchDiffGit_mk (m1 m2 : Str) (hm1 : m1 ≠ []) (hm2 : m2 ≠ [])
    (hsub : hasSub (strOf " b/") m2 = false) :
    matchDiffGit (strOf "diff --git a/" ++ (m1 ++ ' ' :: 'b' :: '/' :: m2)) = some (m1, m2) := by
  unfold matchDiffGit
  rw [if_pos (startsWithL_append _ _)]
  rw [show (13 : Nat) = (strOf "diff --git a/").length from rfl]
  rw [List.drop_left]
  rw [dgSplitAny_append m1 m2 hm2 hsub]
  simp [hm1]

/-- A parsed hunk header starts with `@@ -` and stores the whole line as
`raw`. -/
theorem parseHunkHeader_some (line : Str) (hd : HunkHeader)
    (h : parseHunkHeader line = some hd) :
    startsWithL (strOf "@@ -") line = true ∧ hd.raw = line := by
  unfold parseHunkHeader at h
  by_cases hsw : startsWithL (strOf "@@ -") line = true
  · refine ⟨hsw, ?_⟩
    rw [if_pos hsw] at h
    simp only at h
    repeat' split at h
    all_goals first
      | (have h2 := Option.some.inj h; subst h2; rfl)
      | simp at h
  · rw [if_neg hsw] at h
    simp at h

/-- A parsed hunk header starts with the hunk-range token. -/
theorem parseHunkHeader_some_at (line : Str) (hd : HunkHeader)
    (h : parseHunkHeader line = some hd) : startsWithL (strOf "@@") line = true := by
  have h1 := (parseHunkHeader_some line hd h).1
  rw [startsWithL_decompose _ _ h1]
  rw [show strOf "@@ -" ++ line.drop (strOf "@@ -").length
      = strOf "@@" ++ (' ' :: '-' :: line.drop (strOf "@@ -").length) from rfl]
  exact startsWithL_append _ _

/-- Absence of an embedded newline. -/
def noNL (s : Str) : Bool := !s.contains '\n'

/-- Conditions on a hunk under which the rebuilt text re-parses to the
same header line and line contents: the stored header re-matches the
header grammar, lines are newline-free, and no line could be mistaken for
a hunk-range or chunk-boundary line. -/
def GoodHunk (h : Hunk) : Bool :=
  (parseHunkHeader h.header).isSome && noNL h.header
    && !h.lines.isEmpty
    && !isBoundary h.header && !startsWithL (strOf "diff --git") h.header
    && !isMetadataLine h.header && !startsWithL (strOf "--- ") h.header
    && !startsWithL (strOf "+++ ") h.header
    && h.lines.all (fun l => noNL l.content
        && !startsWithL (strOf "@@") l.content && !isBoundary l.content)

/-- The header and line contents of a hunk: what the round-trip claim
compares. -/
def hunkView (h : Hunk) : Str × List Str := (h.header, h.lines.map (·.content))

/-- The observable view of a FileDiff: display path, the four stored
paths, the metadata lines, and each hunk's header and line contents. -/
def viewFile (f : FileDiff) :
    Option Str × Option Str × Option Str × Option Str × Option Str × List Str
      × List (Str × List Str) :=
  (f.file, f.diffOldFile, f.diffNewFile, f.oldFile, f.newFile, f.metadataLines,
   f.hunks.map hunkView)

/-- The header lines the builder emits for one file. -/
def headerLinesOf (f : FileDiff) : List Str :=
  (strOf "diff --git " ++ orF f.diffOldFile (strOf "a/" ++ showOpt f.file) ++ [' ']
      ++ orF f.diffNewFile (strOf "b/" ++ showOpt f.file))
    :: (f.metadataLines
      ++ [strOf "--- " ++ orF f.oldFile (orF f.diffOldFile (strOf "a/" ++ showOpt f.file)),
          strOf "+++ " ++ orF f.newFile (orF f.diffNewFile (strOf "b/" ++ showOpt f.file))])

/-- The lines the builder emits for one hunk. -/
def hunkLinesOf (h : Hunk) : List Str := h.header :: h.lines.map (·.content)

/-- All lines of one per-file block. -/
def blockLines (f : FileDiff) : List Str := headerLinesOf f ++ f.hunks.flatMap hunkLinesOf

/-- `buildFileHeader` joins exactly the block's header lines. -/
theorem buildFileHeader_eq (f : FileDiff) :
    buildFileHeader f = joinNL (headerLinesOf f) := rfl

/-- Body scan stopping at the next hunk-range line. -/
theorem scanBody_stop (contents : List Str) : ∀ (o n : Nat) (hdr : Str) (tail : List Str),
    (∀ cl ∈ contents, startsWithL (strOf "@@") cl = false) →
    startsWithL (strOf "@@") hdr = true →
    (scanBody o n (contents ++ hdr :: tail)).lines.map (·.content) = contents
    ∧ (scanBody o n (contents ++ hdr :: tail)).rest = hdr :: tail := by
  induction contents with
  | nil =>
    intro o n hdr tail hnc hh
    simp [scanBody, hh]
  | cons cl cls ih =>
    intro o n hdr tail hnc hh
    have hcl := hnc cl (by simp)
    show (scanBody o n (cl :: (cls ++ hdr :: tail))).lines.map (·.content) = cl :: cls
      ∧ (scanBody o n (cl :: (cls ++ hdr :: tail))).rest = hdr :: tail
    simp only [scanBody, hcl, Bool.false_eq_true, if_false]
    have hcond : (decide (cl = []) && decide (cls ++ hdr :: tail = [])) = false := by
      simp
    rw [if_neg (by simp)]
    have ihr := fun o n => ih o n hdr tail (fun x hx => hnc x (by simp [hx])) hh
    rcases hct : classifyLine cl with _ | _ | _ | _ <;>
      simp [hct, (ihr _ _).1, (ihr _ _).2]

/-- Body scan running to the end of the chunk (the trailing empty line
left by the final newline is dropped). -/
theorem scanBody_toEnd (contents : List Str) : ∀ (o n : Nat),
    (∀ cl ∈ contents, startsWithL (strOf "@@") cl = false) →
    (scanBody o n (contents ++ [[]])).lines.map (·.content) = contents
    ∧ (scanBody o n (contents ++ [[]])).rest = [] := by
  induction contents with
  | nil =>
    intro o n h
    simp [scanBody, show startsWithL (strOf "@@") [] = false from rfl]
  | cons cl cls ih =>
    intro o n hnc
    have hcl := hnc cl (by simp)
    show (scanBody o n (cl :: (cls ++ [[]]))).lines.map (·.content) = cl :: cls
      ∧ (scanBody o n (cl :: (cls ++ [[]]))).rest = []
    simp only [scanBody, hcl, Bool.false_eq_true, if_false]
    rw [if_neg (by simp)]
    have ihr := fun o n => ih o n (fun x hx => hnc x (by simp [hx]))
    rcases hct : classifyLine cl with _ | _ | _ | _ <;>
      simp [hct, (ihr _ _).1, (ihr _ _).2]

/-- Scanning the rebuilt hunk region recovers every hunk's header and
line contents. -/
theorem scanHunks_blocks (hs : List Hunk) : ∀ (c : Nat),
    (∀ h ∈ hs, GoodHunk h = true) →
    ((scanHunks c (hs.flatMap hunkLinesOf ++ [[]])).1).map hunkView = hs.map hunkView := by
  induction hs with
  | nil =>
    intro c _
    rw [List.flatMap_nil, List.nil_append, scanHunks_cons]
    rw [show startsWithL (strOf "@@") [] = false from rfl]
    simp [scanHunks, scanHunksF]
  | cons h1 hs ih =>
    intro c hg
    have hg1 := hg h1 (by simp)
    simp only [GoodHunk, Bool.and_eq_true, Option.isSome_iff_exists] at hg1
    obtain ⟨⟨⟨⟨⟨⟨⟨⟨⟨hd, hhd⟩, hnlh⟩, hlne⟩, hnb⟩, hndg⟩, hnmeta⟩, hnold⟩, hnnew⟩, hcontents⟩ := hg1
    have hraw := (parseHunkHeader_some _ _ hhd).2
    have hsw := parseHunkHeader_some_at _ _ hhd
    have hcnt : ∀ cl ∈ h1.lines.map (·.content), startsWithL (strOf "@@") cl = false := by
      intro cl hcl
      rcases List.mem_map.mp hcl with ⟨dl, hdl, rfl⟩
      have := List.all_eq_true.mp hcontents dl hdl
      simp only [Bool.and_eq_true] at this
      simpa using this.1.2
    have hflat : (h1 :: hs).flatMap hunkLinesOf ++ [[]]
        = h1.header :: (h1.lines.map (·.content) ++ (hs.flatMap hunkLinesOf ++ [[]])) := by
      simp [hunkLinesOf, List.flatMap_cons, List.append_assoc]
    rw [hflat, scanHunks_cons]
    simp only [hsw, if_true, hhd]
    cases hs with
    | nil =>
      rw [List.flatMap_nil, List.nil_append]
      have hb := scanBody_toEnd (h1.lines.map (·.content)) hd.oldStart hd.newStart hcnt
      rw [hb.2]
      rw [show scanHunks (c + 1) [] = ([], c + 1) from rfl]
      simp only [List.map_cons, List.map_nil, hunkView, hb.1, hraw]
    | cons h2 hs2 =>
      have hg2 := hg h2 (by simp)
      simp only [GoodHunk, Bool.and_eq_true, Option.isSome_iff_exists] at hg2
      obtain ⟨⟨⟨⟨⟨⟨⟨⟨⟨hd2, hhd2⟩, _⟩, _⟩, _⟩, _⟩, _⟩, _⟩, _⟩, _⟩ := hg2
      have hsw2 := parseHunkHeader_some_at _ _ hhd2
      have hflat2 : (h2 :: hs2).flatMap hunkLinesOf ++ [[]]
          = h2.header :: (h2.lines.map (·.content) ++ (hs2.flatMap hunkLinesOf ++ [[]])) := by
        simp [hunkLinesOf, List.flatMap_cons, List.append_assoc]
      rw [hflat2]
      have hb := scanBody_stop (h1.lines.map (·.content)) hd.oldStart hd.newStart
        h2.header (h2.lines.map (·.content) ++ (hs2.flatMap hunkLinesOf ++ [[]])) hcnt hsw2
      rw [hb.2, ← hflat2]
      have hb1 := hb.1
      rw [← hflat2] at hb1
      have ihr := ih (c + 1) (fun h hh => hg h (by simp [hh]))
      rcases hsc : scanHunks (c + 1) ((h2 :: hs2).flatMap hunkLinesOf ++ [[]]) with ⟨hs', c2⟩
      rw [hsc] at ihr
      simp only at ihr
      simp only [hsc, List.map_cons, hunkView, hb1, hraw, ihr]

/-- Metadata lines are appended to the state in order and skipped over. -/
theorem scanHeader_metadata (ms : List Str) : ∀ (st : HeaderState) (rest : List Str),
    (∀ m ∈ ms, isMetadataLine m = true ∧ startsWithL (strOf "diff --git") m = false) →
    scanHeader st (ms ++ rest)
      = scanHeader { st with metadataLines := st.metadataLines ++ ms } rest := by
  induction ms with
  | nil => intro st rest h; simp
  | cons m ms ih =>
    intro st rest h
    rcases h m (by simp) with ⟨h1, h2⟩
    show scanHeader st (m :: (ms ++ rest)) = _
    simp only [scanHeader, h2, Bool.false_eq_true, if_false, h1, if_true]
    rw [ih _ rest (fun x hx => h x (by simp [hx]))]
    have hmd : (st.metadataLines ++ [m]) ++ ms = st.metadataLines ++ m :: ms := by simp
    rw [hmd]

/-- `orF` of a nonempty present value is that value. -/
theorem orF_some_ne (s b : Str) (h : s ≠ []) : orF (some s) b = s := by
  simp [orF, h]

/-- Conditions on one file of the model under which rebuilding and
re-parsing its block recovers the same paths, metadata and hunk views:
the stored path fields have the shapes the builder and parser grammars
expect, no emitted line collides with another header class, and every
hunk satisfies `GoodHunk`. -/
def GoodFile (f : FileDiff) : Bool :=
  match f.file, f.diffOldFile, f.diffNewFile, f.oldFile, f.newFile with
  | some disp, some dof, some dnf, some ofl, some nfl =>
    decide (disp ≠ []) && noNL disp
    && startsWithL (strOf "a/") dof && decide (dof.drop 2 ≠ []) && noNL dof
    && startsWithL (strOf "b/") dnf && decide (dnf.drop 2 ≠ []) && noNL dnf
    && !hasSub (strOf " b/") (dnf.drop 2)
    && decide (ofl ≠ []) && noNL ofl && decide (nfl ≠ []) && noNL nfl
    && (if startsWithL (strOf "b/") nfl then decide (nfl.drop 2 = disp)
        else decide (dnf.drop 2 = disp))
    && !isMetadataLine (strOf "--- " ++ ofl) && !isBoundary (strOf "--- " ++ ofl)
    && !startsWithL (strOf "diff --git") (strOf "--- " ++ ofl)
    && !isMetadataLine (strOf "+++ " ++ nfl) && !isBoundary (strOf "+++ " ++ nfl)
    && !startsWithL (strOf "diff --git") (strOf "+++ " ++ nfl)
    && !startsWithL (strOf "--- ") (strOf "+++ " ++ nfl)
    && f.metadataLines.all (fun m => isMetadataLine m && noNL m && !isBoundary m
        && !startsWithL (strOf "diff --git") m)
    && !f.hunks.isEmpty && f.hunks.all GoodHunk
  | _, _, _, _, _ => false

/-- A model on which the whole-document round trip is proved. -/
def GoodFds (fds : List FileDiff) : Bool := fds.all GoodFile

/-- Re-parsing the rebuilt block of one good file recovers its view. -/
theorem parseFileDiff_block (c : Nat) (disp dof dnf ofl nfl : Str) (md : List Str)
    (hunks : List Hunk)
    (hf : GoodFile ⟨some disp, some dof, some dnf, some ofl, some nfl, md, hunks⟩ = true) :
    viewFile (parseFileDiff c
        (blockLines ⟨some disp, some dof, some dnf, some ofl, some nfl, md, hunks⟩ ++ [[]])).1
      = viewFile ⟨some disp, some dof, some dnf, some ofl, some nfl, md, hunks⟩ := by
  simp only [GoodFile, Bool.and_eq_true] at hf
  obtain ⟨⟨⟨⟨⟨⟨⟨⟨⟨⟨⟨⟨⟨⟨⟨⟨⟨⟨⟨⟨⟨⟨⟨hdisp, hdispnl⟩, hdofsw⟩, hdofne⟩, hdofnl⟩, hdnfsw⟩,
    hdnfne⟩, hdnfnl⟩, hdnfsub⟩, hoflne⟩, hoflnl⟩, hnflne⟩, hnflnl⟩, hfileif⟩, holdmeta⟩,
    holdbound⟩, holddg⟩, hnewmeta⟩, hnewbound⟩, hnewdg⟩, hnewold⟩, hmd⟩, hhne⟩, hhall⟩ := hf
  simp only [decide_eq_true_eq] at hdisp hdofne hdnfne hoflne hnflne
  simp only [Bool.not_eq_true'] at holdmeta holdbound holddg hnewmeta hdnfsub
  simp only [Bool.not_eq_true'] at hnewbound hnewdg hnewold hhne
  have hdofne2 : dof ≠ [] := by
    intro hx
    rw [hx] at hdofne
    simp at hdofne
  have hdnfne2 : dnf ≠ [] := by
    intro hx
    rw [hx] at hdnfne
    simp at hdnfne
  have hdofexp : dof = strOf "a/" ++ dof.drop 2 := by
    have := startsWithL_decompose (strOf "a/") dof hdofsw
    simpa using this
  have hdnfexp : dnf = strOf "b/" ++ dnf.drop 2 := by
    have := startsWithL_decompose (strOf "b/") dnf hdnfsw
    simpa using this
  have hshape : blockLines ⟨some disp, some dof, some dnf, some ofl, some nfl, md, hunks⟩ ++ [[]]
      = (strOf "diff --git " ++ dof ++ [' '] ++ dnf)
        :: (md ++ ((strOf "--- " ++ ofl)
          :: (strOf "+++ " ++ nfl) :: (hunks.flatMap hunkLinesOf ++ [[]]))) := by
    simp only [blockLines, headerLinesOf, orF_some_ne dof _ hdofne2,
      orF_some_ne dnf _ hdnfne2, orF_some_ne ofl _ hoflne, orF_some_ne nfl _ hnflne]
    simp [List.append_assoc]
  have hdg : strOf "diff --git " ++ dof ++ [' '] ++ dnf
      = strOf "diff --git a/" ++ (dof.drop 2 ++ ' ' :: 'b' :: '/' :: dnf.drop 2) := by
    conv_lhs => rw [hdofexp, hdnfexp]
    simp only [List.append_assoc]
    rfl
  have c1 : startsWithL (strOf "diff --git") (strOf "diff --git " ++ dof ++ [' '] ++ dnf) = true := by
    apply List.isPrefixOf_iff_prefix.mpr
    have p1 : strOf "diff --git" <+: strOf "diff --git a/" :=
      List.isPrefixOf_iff_prefix.mp (by decide)
    have p2 : strOf "diff --git a/" <+: strOf "diff --git " ++ dof ++ [' '] ++ dnf := by
      rw [hdg]
      exact List.prefix_append _ _
    exact p1.trans p2
  have hmatch : matchDiffGit (strOf "diff --git " ++ dof ++ [' '] ++ dnf)
      = some (dof.drop 2, dnf.drop 2) := by
    rw [hdg]
    exact matchDiffGit_mk (dof.drop 2) (dnf.drop 2) hdofne hdnfne hdnfsub
  have hold_sw : startsWithL (strOf "--- ") (strOf "--- " ++ ofl) = true :=
    startsWithL_append _ _
  have hnew_sw : startsWithL (strOf "+++ ") (strOf "+++ " ++ nfl) = true :=
    startsWithL_append _ _
  have holddrop : (strOf "--- " ++ ofl).drop 4 = ofl := by
    rw [show (4 : Nat) = (strOf "--- ").length from rfl, List.drop_left]
  have hnewdrop : (strOf "+++ " ++ nfl).drop 4 = nfl := by
    rw [show (4 : Nat) = (strOf "+++ ").length from rfl, List.drop_left]
  rcases hunks with _ | ⟨h1, hrest⟩
  · simp at hhne
  have hg1 := List.all_eq_true.mp hhall h1 (by simp)
  have hh1hd : ∃ hd, parseHunkHeader h1.header = some hd := by
    simp only [GoodHunk, Bool.and_eq_true] at hg1
    exact Option.isSome_iff_exists.mp (by
      have := hg1.1.1.1.1.1.1.1.1
      exact this)
  obtain ⟨hd1, hhd1⟩ := hh1hd
  have hg1' := List.all_eq_true.mp hhall h1 (by simp)
  simp only [GoodHunk, Bool.and_eq_true, Bool.not_eq_true'] at hg1'
  have hsw1 : startsWithL (strOf "@@") h1.header = true := parseHunkHeader_some_at _ _ hhd1
  have hflat1 : (h1 :: hrest).flatMap hunkLinesOf ++ [[]]
      = h1.header :: (h1.lines.map (·.content) ++ (hrest.flatMap hunkLinesOf ++ [[]])) := by
    simp [hunkLinesOf, List.flatMap_cons, List.append_assoc]
  have hscan : scanHeader initHeaderState
      (blockLines ⟨some disp, some dof, some dnf, some ofl, some nfl, md, h1 :: hrest⟩ ++ [[]])
      = (⟨some disp, some dof, some dnf, some ofl, some nfl, md⟩,
         (h1 :: hrest).flatMap hunkLinesOf ++ [[]]) := by
    rw [hshape]
    simp only [scanHeader, c1, if_true, hmatch]
    rw [scanHeader_metadata md _ _ (fun m hm => by
      have := List.all_eq_true.mp hmd m hm
      simp only [Bool.and_eq_true, Bool.not_eq_true'] at this
      exact ⟨this.1.1.1, this.2⟩)]
    simp only [scanHeader, holddg, Bool.false_eq_true, if_false, holdmeta, hold_sw, if_true]
    simp only [hnewdg, Bool.false_eq_true, if_false, hnewmeta, hnewold, hnew_sw, if_true]
    simp only [hnewdrop, holddrop]
    rw [hflat1]
    simp only [scanHeader, hg1'.1.1.1.1.2, Bool.false_eq_true, if_false,
      hg1'.1.1.1.2, hg1'.1.1.2, hg1'.1.2, hsw1, if_true]
    rw [← hflat1]
    congr 1
    · by_cases hb2 : startsWithL (strOf "b/") nfl = true
      · rw [if_pos hb2] at hfileif ⊢
        simp only [decide_eq_true_eq] at hfileif
        simp only [hfileif]
        congr 2
        · exact hdofexp.symm
        · exact hdnfexp.symm
      · rw [if_neg hb2] at hfileif
        simp only [decide_eq_true_eq] at hfileif
        simp only [hb2, Bool.false_eq_true, if_false]
        simp only [hfileif]
        congr 2
        · exact hdofexp.symm
        · rw [← hfileif]
          exact hdnfexp.symm
  unfold parseFileDiff
  rw [hscan]
  have hblocks := scanHunks_blocks (h1 :: hrest) c (fun h hh => List.all_eq_true.mp hhall h hh)
  simp only [viewFile]
  rw [hblocks]

/-! ## Round-trip (C3): whole-document assembly -/

/-- Every hunk id of a model, in document order: the id set the
round-trip claim passes to the builder. -/
def allHunkIds (fds : List FileDiff) : List Nat :=
  fds.flatMap (fun f => f.hunks.map (·.id))

/-- Chunks as the string-level split of a built patch leaves them: the
final empty line is attached to the last block. -/
def lastPad : List (List Str) → List (List Str)
  | [] => []
  | [b] => [b ++ [[]]]
  | b :: bs => b :: lastPad bs

/-- `joinNL` on a cons cell with nonempty tail. -/
theorem joinNL_cons_ne (l : Str) (ls : List Str) (h : ls ≠ []) :
    joinNL (l :: ls) = l ++ '\n' :: joinNL ls := by
  cases ls with
  | nil => simp at h
  | cons a as => rfl

/-- The newline-join of a cons extends its first line. -/
theorem joinNL_head (l : Str) (ls : List Str) : ∃ t, joinNL (l :: ls) = l ++ t := by
  cases ls with
  | nil => exact ⟨[], by simp [joinNL]⟩
  | cons a as => exact ⟨'\n' :: joinNL (a :: as), rfl⟩

/-- `formatHunk` joins exactly the hunk's emitted lines. -/
theorem formatHunk_eq (h : Hunk) (hne : h.lines ≠ []) :
    formatHunk h = joinNL (hunkLinesOf h) := by
  show h.header ++ '\n' :: joinNL (h.lines.map (·.content))
    = joinNL (h.header :: h.lines.map (·.content))
  rw [joinNL_cons_ne _ _ (by
    intro hx
    exact hne (by simpa using hx))]

/-- The emitted block of any file is nonempty. -/
theorem blockLines_ne_nil (f : FileDiff) : blockLines f ≠ [] := by
  simp [blockLines, headerLinesOf]

/-- The emitted lines of any hunk are nonempty. -/
theorem hunkLinesOf_ne_nil (h : Hunk) : hunkLinesOf h ≠ [] := by
  simp [hunkLinesOf]

/-- Joining per-block joins equals joining the flattened line list. -/
theorem joinNL_map_flatten (bss : List (List Str)) (h : ∀ b ∈ bss, b ≠ []) :
    joinNL (bss.map joinNL) = joinNL bss.flatten := by
  induction bss with
  | nil => rfl
  | cons b bs ih =>
    cases bs with
    | nil => simp [joinNL]
    | cons b2 bs2 =>
      have hb : b ≠ [] := h b (by simp)
      have hflat : (b2 :: bs2).flatten ≠ [] := by
        rw [List.flatten_cons]
        intro hx
        exact h b2 (by simp) (List.append_eq_nil.mp hx).1
      rw [List.map_cons, joinNL_cons_ne _ _ (by simp), List.flatten_cons,
        joinNL_append b _ hb hflat, ih (fun x hx => h x (by simp [hx]))]

/-- A `noNL` string has no newline character. -/
theorem noNL_mem (s : Str) (h : noNL s = true) : '\n' ∉ s := by
  intro hm
  have hc : s.contains '\n' = true := by
    show s.elem '\n' = true
    exact List.elem_iff.mpr hm
  simp [noNL, hc] at h
  exact h hm

/-- Newline-freeness of an append. -/
theorem noNL_app (xs ys : Str) (hx : '\n' ∉ xs) (hy : '\n' ∉ ys) : '\n' ∉ xs ++ ys := by
  intro hm
  rcases List.mem_append.mp hm with hm | hm
  · exact hx hm
  · exact hy hm

/-- `chunkify` always returns at least one group. -/
theorem chunkify_ne_nil (ls : List Str) : chunkify ls ≠ [] := by
  induction ls with
  | nil => simp [chunkify]
  | cons l ls ih =>
    rcases h : chunkify ls with _ | ⟨g, gs⟩
    · exact absurd h ih
    · show chunkify (l :: ls) ≠ []
      simp only [chunkify, h]
      split <;> simp

/-- Prepending non-boundary lines extends the first group. -/
theorem chunkify_nb (b : List Str) (tail : List Str) (g : List Str) (gs : List (List Str))
    (hb : ∀ l ∈ b, isBoundary l = false) (ht : chunkify tail = g :: gs) :
    chunkify (b ++ tail) = (b ++ g) :: gs := by
  induction b with
  | nil => simpa using ht
  | cons l b ih =>
    have hl := hb l (by simp)
    have ihr := ih (fun x hx => hb x (by simp [hx]))
    show chunkify (l :: (b ++ tail)) = ((l :: b) ++ g) :: gs
    simp only [chunkify, ihr, hl, Bool.false_eq_true, if_false, List.cons_append]

/-- `chunkify` of flattened boundary-led blocks plus the final empty
line: one empty leading group, then the blocks, the last padded. -/
theorem chunkify_blocks (bs : List (List Str)) (hne : bs ≠ [])
    (h : ∀ b ∈ bs, ∃ l0 rest, b = l0 :: rest ∧ isBoundary l0 = true
      ∧ ∀ l ∈ rest, isBoundary l = false) :
    chunkify (bs.flatten ++ [[]]) = [] :: lastPad bs := by
  induction bs with
  | nil => simp at hne
  | cons b bs ih =>
    obtain ⟨l0, rest, hbeq, hl0, hrest⟩ := h b (by simp)
    cases bs with
    | nil =>
      subst hbeq
      rw [List.flatten_cons, List.flatten_nil, List.append_nil]
      show chunkify (l0 :: (rest ++ [[]])) = [] :: lastPad [l0 :: rest]
      have hstep : chunkify (rest ++ [[]]) = (rest ++ [[]]) :: [] :=
        chunkify_nb rest [[]] [[]] [] hrest rfl
      simp only [chunkify, hstep, hl0, if_true, lastPad, List.cons_append]
    | cons b2 bs2 =>
      have ihr := ih (by simp) (fun x hx => h x (by simp [hx]))
      subst hbeq
      rw [List.flatten_cons, List.append_assoc]
      show chunkify (l0 :: (rest ++ ((b2 :: bs2).flatten ++ [[]]))) = _
      have hstep := chunkify_nb rest ((b2 :: bs2).flatten ++ [[]]) []
        (lastPad (b2 :: bs2)) hrest ihr
      rw [List.append_nil] at hstep
      simp only [chunkify, hstep, hl0, if_true]
      rfl

/-- `appendEmpties` pads every block once the leading empty group is
present. -/
theorem appendEmpties_pad (bs : List (List Str)) (hne : bs ≠ []) :
    appendEmpties ([] :: lastPad bs) = [[]] :: bs.map (fun b => b ++ [[]]) := by
  induction bs with
  | nil => simp at hne
  | cons b bs ih =>
    cases bs with
    | nil => rfl
    | cons b2 bs2 =>
      have ih2 := ih (by simp)
      rcases hX : lastPad (b2 :: bs2) with _ | ⟨y, ys⟩
      · exact absurd hX (by cases bs2 <;> simp [lastPad])
      · rw [hX] at ih2
        have h1 : appendEmpties ([] :: y :: ys) = [[]] :: appendEmpties (y :: ys) := rfl
        rw [h1] at ih2
        have h2 : appendEmpties (y :: ys) = (b2 :: bs2).map (fun b => b ++ [[]]) := by
          injection ih2 with hh htl
        show appendEmpties ([] :: b :: lastPad (b2 :: bs2)) = _
        rw [hX]
        have h3 : appendEmpties ([] :: b :: y :: ys)
            = [[]] :: (b ++ [[]]) :: appendEmpties (y :: ys) := rfl
        rw [h3, h2]
        rfl

/-- The facts about one good file's emitted block that the whole-document
assembly uses: a boundary first line starting with a non-whitespace
character, a boundary-free rest, no embedded newlines, a truthy display
path, and nonempty hunks whose line lists are nonempty. -/
theorem GoodFile_facts (f : FileDiff) (hf : GoodFile f = true) :
    (∃ t rest, blockLines f = ('d' :: t) :: rest
      ∧ isBoundary ('d' :: t) = true
      ∧ ∀ l ∈ rest, isBoundary l = false)
    ∧ (∀ l ∈ blockLines f, '\n' ∉ l)
    ∧ jsTruthy f.file = true
    ∧ f.hunks.isEmpty = false
    ∧ (∀ hk ∈ f.hunks, hk.lines ≠ []) := by
  rcases f with ⟨fo, doo, dno, ofo, nfo, md, hunks⟩
  rcases fo with _ | disp
  · simp [GoodFile] at hf
  rcases doo with _ | dof
  · simp [GoodFile] at hf
  rcases dno with _ | dnf
  · simp [GoodFile] at hf
  rcases ofo with _ | ofl
  · simp [GoodFile] at hf
  rcases nfo with _ | nfl
  · simp [GoodFile] at hf
  simp only [GoodFile, Bool.and_eq_true] at hf
  obtain ⟨⟨⟨⟨⟨⟨⟨⟨⟨⟨⟨⟨⟨⟨⟨⟨⟨⟨⟨⟨⟨⟨⟨hdisp, hdispnl⟩, hdofsw⟩, hdofne⟩, hdofnl⟩, hdnfsw⟩,
    hdnfne⟩, hdnfnl⟩, hdnfsub⟩, hoflne⟩, hoflnl⟩, hnflne⟩, hnflnl⟩, hfileif⟩, holdmeta⟩,
    holdbound⟩, holddg⟩, hnewmeta⟩, hnewbound⟩, hnewdg⟩, hnewold⟩, hmd⟩, hhne⟩, hhall⟩ := hf
  simp only [decide_eq_true_eq] at hdisp hdofne hdnfne hoflne hnflne
  simp only [Bool.not_eq_true'] at holdbound hnewbound hhne
  have hdofne2 : dof ≠ [] := by
    intro hx
    rw [hx] at hdofne
    simp at hdofne
  have hdnfne2 : dnf ≠ [] := by
    intro hx
    rw [hx] at hdnfne
    simp at hdnfne
  have hshape : blockLines ⟨some disp, some dof, some dnf, some ofl, some nfl, md, hunks⟩
      = (strOf "diff --git " ++ dof ++ [' '] ++ dnf)
        :: (md ++ ((strOf "--- " ++ ofl)
          :: (strOf "+++ " ++ nfl) :: hunks.flatMap hunkLinesOf)) := by
    simp only [blockLines, headerLinesOf, orF_some_ne dof _ hdofne2,
      orF_some_ne dnf _ hdnfne2, orF_some_ne ofl _ hoflne, orF_some_ne nfl _ hnflne]
    simp [List.append_assoc]
  have hdg : strOf "diff --git " ++ dof ++ [' '] ++ dnf
      = 'd' :: (strOf "iff --git " ++ dof ++ [' '] ++ dnf) := rfl
  refine ⟨⟨strOf "iff --git " ++ dof ++ [' '] ++ dnf,
    md ++ ((strOf "--- " ++ ofl) :: (strOf "+++ " ++ nfl) :: hunks.flatMap hunkLinesOf),
    by rw [hshape, hdg], ?_, ?_⟩, ?_, ?_, ?_, ?_⟩
  · rw [← hdg]
    show startsWithL (strOf "diff --git ") (strOf "diff --git " ++ dof ++ [' '] ++ dnf) = true
    rw [show strOf "diff --git " ++ dof ++ [' '] ++ dnf
        = strOf "diff --git " ++ (dof ++ [' '] ++ dnf) by simp [List.append_assoc]]
    exact startsWithL_append _ _
  · intro l hl
    rcases List.mem_append.mp hl with hl | hl
    · have hm := List.all_eq_true.mp hmd l hl
      simp only [Bool.and_eq_true, Bool.not_eq_true'] at hm
      exact hm.1.2
    · rcases List.mem_cons.mp hl with rfl | hl
      · exact holdbound
      rcases List.mem_cons.mp hl with rfl | hl
      · exact hnewbound
      rcases List.mem_flatMap.mp hl with ⟨hk, hhk, hlk⟩
      have hg := List.all_eq_true.mp hhall hk hhk
      simp only [GoodHunk, Bool.and_eq_true, Bool.not_eq_true'] at hg
      rcases List.mem_cons.mp hlk with rfl | hlk
      · exact hg.1.1.1.1.1.2
      rcases List.mem_map.mp hlk with ⟨dl, hdl, rfl⟩
      have hcl := List.all_eq_true.mp hg.2 dl hdl
      simp only [Bool.and_eq_true, Bool.not_eq_true'] at hcl
      exact hcl.2
  · rw [hshape]
    intro l hl
    rcases List.mem_cons.mp hl with rfl | hl
    · exact noNL_app _ _ (noNL_app _ _ (noNL_app _ _ (by decide) (noNL_mem dof hdofnl))
        (by decide)) (noNL_mem dnf hdnfnl)
    rcases List.mem_append.mp hl with hl | hl
    · have hm := List.all_eq_true.mp hmd l hl
      simp only [Bool.and_eq_true] at hm
      exact noNL_mem l hm.1.1.2
    rcases List.mem_cons.mp hl with rfl | hl
    · exact noNL_app _ _ (by decide) (noNL_mem ofl hoflnl)
    rcases List.mem_cons.mp hl with rfl | hl
    · exact noNL_app _ _ (by decide) (noNL_mem nfl hnflnl)
    rcases List.mem_flatMap.mp hl with ⟨hk, hhk, hlk⟩
    have hg := List.all_eq_true.mp hhall hk hhk
    simp only [GoodHunk, Bool.and_eq_true] at hg
    rcases List.mem_cons.mp hlk with rfl | hlk
    · exact noNL_mem _ hg.1.1.1.1.1.1.1.2
    rcases List.mem_map.mp hlk with ⟨dl, hdl, rfl⟩
    have hcl := List.all_eq_true.mp hg.2 dl hdl
    simp only [Bool.and_eq_true] at hcl
    exact noNL_mem _ hcl.1.1
  · simp [jsTruthy, hdisp]
  · exact hhne
  · intro hk hhk
    have hg := List.all_eq_true.mp hhall hk hhk
    simp only [GoodHunk, Bool.and_eq_true, Bool.not_eq_true'] at hg
    have h3 := hg.1.1.1.1.1.1.2
    intro hx
    rw [hx] at h3
    simp at h3

/-- With every hunk selected, the builder's per-file bodies are exactly
the per-file block joins. -/
theorem patches_all (ids : List Nat) (fds : List FileDiff)
    (h1 : ∀ f ∈ fds, f.hunks.filter (fun hk => ids.contains hk.id) = f.hunks)
    (h2 : ∀ f ∈ fds, f.hunks.isEmpty = false)
    (h3 : ∀ f ∈ fds, ∀ hk ∈ f.hunks, hk.lines ≠ []) :
    fds.filterMap (fun f =>
      let selectedHunks := f.hunks.filter (fun hk => ids.contains hk.id)
      if selectedHunks.isEmpty then none
      else some (buildFileHeader f ++ '\n' :: joinNL (selectedHunks.map formatHunk)))
      = (fds.map blockLines).map joinNL := by
  induction fds with
  | nil => rfl
  | cons f fs ih =>
    have hsel := h1 f (by simp)
    have hne := h2 f (by simp)
    have hfl : f.hunks.flatMap hunkLinesOf ≠ [] := by
      rcases hfh : f.hunks with _ | ⟨hk, hks⟩
      · rw [hfh] at hne
        simp at hne
      · rw [List.flatMap_cons]
        intro hx
        exact hunkLinesOf_ne_nil hk (List.append_eq_nil.mp hx).1
    rw [List.filterMap_cons]
    simp only [hsel, hne, Bool.false_eq_true, if_false]
    rw [ih (fun x hx => h1 x (by simp [hx])) (fun x hx => h2 x (by simp [hx]))
      (fun x hx => h3 x (by simp [hx]))]
    rw [List.map_cons, List.map_cons]
    congr 1
    rw [buildFileHeader_eq]
    have hmapf : f.hunks.map formatHunk = (f.hunks.map hunkLinesOf).map joinNL := by
      rw [List.map_map]
      exact List.map_congr_left (fun hk hhk => formatHunk_eq hk (h3 f (by simp) hk hhk))
    rw [hmapf, joinNL_map_flatten _ (fun b hb => by
      rcases List.mem_map.mp hb with ⟨hk, hhk2, rfl⟩
      exact hunkLinesOf_ne_nil hk)]
    rw [← List.flatMap_def]
    show joinNL (headerLinesOf f) ++ '\n' :: joinNL (f.hunks.flatMap hunkLinesOf)
      = joinNL (headerLinesOf f ++ f.hunks.flatMap hunkLinesOf)
    rw [joinNL_append _ _ (by simp [headerLinesOf]) hfl]

/-- Surviving the final truthiness filter is determined by the view, so a
view-equal parse filters to the same views. -/
theorem filter_views (l1 : List FileDiff) : ∀ (l2 : List FileDiff),
    l1.map viewFile = l2.map viewFile →
    (∀ f ∈ l2, jsTruthy f.file = true ∧ f.hunks.isEmpty = false) →
    (l1.filter (fun f => jsTruthy f.file && !f.hunks.isEmpty)).map viewFile
      = l2.map viewFile := by
  induction l1 with
  | nil =>
    intro l2 h _
    cases l2 with
    | nil => rfl
    | cons g l2 => simp at h
  | cons f l1 ih =>
    intro l2 h hg
    cases l2 with
    | nil => simp at h
    | cons g l2 =>
      simp only [List.map_cons, List.cons.injEq] at h
      obtain ⟨hv, ht⟩ := h
      obtain ⟨hj, hh⟩ := hg g (by simp)
      have hjf : jsTruthy f.file = true := by
        have hfile : f.file = g.file := congrArg (fun v => v.1) hv
        rw [hfile]
        exact hj
      have hhf : f.hunks.isEmpty = false := by
        have hhv : f.hunks.map hunkView = g.hunks.map hunkView := by
          have hl := congrArg (fun v => v.2.2.2.2.2.2) hv
          simpa using hl
        cases hfh : f.hunks with
        | nil =>
          rw [hfh] at hhv
          cases hgh : g.hunks with
          | nil =>
            rw [hgh] at hh
            simp at hh
          | cons a l =>
            rw [hgh] at hhv
            simp at hhv
        | cons a l => rfl
      rw [List.filter_cons_of_pos (by simp [hjf, hhf])]
      rw [List.map_cons, hv]
      rw [ih l2 ht (fun x hx => hg x (by simp [hx])), List.map_cons]

/-- Parsing the per-file chunks of rebuilt blocks recovers every file's
view, whatever the incoming id counter. -/
theorem parseChunkList_blocks : ∀ (c : Nat) (fds : List FileDiff),
    GoodFds fds = true →
    (parseChunkList c (fds.map (fun f => blockLines f ++ [[]]))).map viewFile
      = fds.map viewFile := by
  intro c fds
  induction fds generalizing c with
  | nil => intro _; rfl
  | cons f fs ih =>
    intro hg
    have hg2 : (f :: fs).all GoodFile = true := hg
    have hgf : GoodFile f = true := List.all_eq_true.mp hg2 f (by simp)
    have hgs : GoodFds fs = true :=
      List.all_eq_true.mpr (fun x hx => List.all_eq_true.mp hg2 x (by simp [hx]))
    rw [List.map_cons]
    rcases hp : parseFileDiff c (blockLines f ++ [[]]) with ⟨fd, c2⟩
    have hstep : parseChunkList c
          ((blockLines f ++ [[]]) :: fs.map (fun f => blockLines f ++ [[]]))
        = fd :: parseChunkList c2 (fs.map (fun f => blockLines f ++ [[]])) := by
      simp [parseChunkList, hp]
    rw [hstep, List.map_cons, List.map_cons]
    congr 1
    · rcases f with ⟨fo, doo, dno, ofo, nfo, md, hunks⟩
      rcases fo with _ | disp
      · simp [GoodFile] at hgf
      rcases doo with _ | dof
      · simp [GoodFile] at hgf
      rcases dno with _ | dnf
      · simp [GoodFile] at hgf
      rcases ofo with _ | ofl
      · simp [GoodFile] at hgf
      rcases nfo with _ | nfl
      · simp [GoodFile] at hgf
      have hb := parseFileDiff_block c disp dof dnf ofl nfl md hunks hgf
      rw [hp] at hb
      simpa using hb
    · exact ih c2 hgs

/-- Whole-document round trip on the model: rebuilding every hunk and
re-parsing preserves every file's observable view. -/
theorem roundTrip_model (fds0 : List FileDiff) (hgood : GoodFds fds0 = true) :
    (parseDiff (buildPatchFromHunks fds0 (allHunkIds fds0))).map viewFile
      = fds0.map viewFile := by
  rcases fds0 with _ | ⟨f0, fs0⟩
  · rfl
  have hgood2 : (f0 :: fs0).all GoodFile = true := hgood
  have hfacts := fun (f : FileDiff) (hf : f ∈ f0 :: fs0) =>
    GoodFile_facts f (List.all_eq_true.mp hgood2 f hf)
  have hsel : ∀ f ∈ f0 :: fs0,
      f.hunks.filter (fun hk => (allHunkIds (f0 :: fs0)).contains hk.id) = f.hunks := by
    intro f hf
    apply List.filter_eq_self.mpr
    intro hk hhk
    show List.elem hk.id (allHunkIds (f0 :: fs0)) = true
    apply List.elem_iff.mpr
    exact List.mem_flatMap.mpr ⟨f, hf, List.mem_map.mpr ⟨hk, hhk, rfl⟩⟩
  have hne2 : ∀ f ∈ f0 :: fs0, f.hunks.isEmpty = false :=
    fun f hf => (hfacts f hf).2.2.2.1
  have hlines : ∀ f ∈ f0 :: fs0, ∀ hk ∈ f.hunks, hk.lines ≠ [] :=
    fun f hf => (hfacts f hf).2.2.2.2
  have hbuild : buildPatchFromHunks (f0 :: fs0) (allHunkIds (f0 :: fs0))
      = joinNL (((f0 :: fs0).map blockLines).map joinNL) ++ ['\n'] := by
    show joinNL ((f0 :: fs0).filterMap _) ++ ['\n'] = _
    rw [patches_all (allHunkIds (f0 :: fs0)) (f0 :: fs0) hsel hne2 hlines]
  have hjoin : joinNL (((f0 :: fs0).map blockLines).map joinNL)
      = joinNL ((f0 :: fs0).map blockLines).flatten :=
    joinNL_map_flatten _ (fun b hb => by
      rcases List.mem_map.mp hb with ⟨f, hf2, rfl⟩
      exact blockLines_ne_nil f)
  have hlines_noNL : ∀ l ∈ ((f0 :: fs0).map blockLines).flatten, '\n' ∉ l := by
    intro l hl
    rcases List.mem_flatten.mp hl with ⟨b, hb, hlb⟩
    rcases List.mem_map.mp hb with ⟨f, hf2, rfl⟩
    exact (hfacts f hf2).2.1 l hlb
  have hflatne : ((f0 :: fs0).map blockLines).flatten ≠ [] := by
    rw [List.map_cons, List.flatten_cons]
    intro hx
    exact blockLines_ne_nil f0 (List.append_eq_nil.mp hx).1
  have hsplit : splitLines (buildPatchFromHunks (f0 :: fs0) (allHunkIds (f0 :: fs0)))
      = ((f0 :: fs0).map blockLines).flatten ++ [[]] := by
    rw [hbuild, hjoin]
    show splitOnCh '\n' (joinNL _ ++ ['\n']) = _
    rw [splitOnCh_append_last, splitOnCh_joinNL _ hflatne hlines_noNL]
  have hblocksh : ∀ b ∈ (f0 :: fs0).map blockLines, ∃ l0 rest, b = l0 :: rest
      ∧ isBoundary l0 = true ∧ ∀ l ∈ rest, isBoundary l = false := by
    intro b hb
    rcases List.mem_map.mp hb with ⟨f, hf2, rfl⟩
    obtain ⟨t, rest, heq, hbd, hrest⟩ := (hfacts f hf2).1
    exact ⟨'d' :: t, rest, heq, hbd, hrest⟩
  have hchunk : chunkify (((f0 :: fs0).map blockLines).flatten ++ [[]])
      = [] :: lastPad ((f0 :: fs0).map blockLines) :=
    chunkify_blocks _ (by simp) hblocksh
  have hpad : appendEmpties ([] :: lastPad ((f0 :: fs0).map blockLines))
      = [[]] :: ((f0 :: fs0).map blockLines).map (fun b => b ++ [[]]) :=
    appendEmpties_pad _ (by simp)
  have hfilter : (([[]] :: ((f0 :: fs0).map blockLines).map (fun b => b ++ [[]])).filter
        anyNonWS)
      = ((f0 :: fs0).map blockLines).map (fun b => b ++ [[]]) := by
    have h0 : anyNonWS [[]] = false := rfl
    rw [List.filter_cons, h0]
    simp only [Bool.false_eq_true, if_false]
    apply List.filter_eq_self.mpr
    intro b hb
    rcases List.mem_map.mp hb with ⟨b2, hb2, rfl⟩
    rcases List.mem_map.mp hb2 with ⟨f, hf2, rfl⟩
    obtain ⟨t, rest, heq, hbd, hrest⟩ := (hfacts f hf2).1
    apply List.any_eq_true.mpr
    refine ⟨'d' :: t, by simp [heq], ?_⟩
    simpa using trimL_cons_ne_nil 'd' t (by decide)
  have hchunks : diffChunks (buildPatchFromHunks (f0 :: fs0) (allHunkIds (f0 :: fs0)))
      = (f0 :: fs0).map (fun f => blockLines f ++ [[]]) := by
    show (appendEmpties (chunkify (splitLines _))).filter anyNonWS = _
    rw [hsplit, hchunk, hpad, hfilter, List.map_map]
    rfl
  have hraw_ne : trimL (buildPatchFromHunks (f0 :: fs0) (allHunkIds (f0 :: fs0))) ≠ [] := by
    rw [hbuild, hjoin]
    obtain ⟨t, rest0, heq0, hbd0, hrest0⟩ := (hfacts f0 (by simp)).1
    rw [List.map_cons, List.flatten_cons, heq0, List.cons_append]
    obtain ⟨tj, hj⟩ := joinNL_head ('d' :: t) _
    rw [hj, List.cons_append, List.cons_append]
    exact trimL_cons_ne_nil 'd' _ (by decide)
  have hpre : parseDiffPre (buildPatchFromHunks (f0 :: fs0) (allHunkIds (f0 :: fs0)))
      = parseChunkList 0 ((f0 :: fs0).map (fun f => blockLines f ++ [[]])) := by
    show (if trimL _ = [] then [] else parseChunkList 0 (diffChunks _)) = _
    rw [if_neg hraw_ne, hchunks]
  have hviews : (parseChunkList 0 ((f0 :: fs0).map (fun f => blockLines f ++ [[]]))).map
      viewFile = (f0 :: fs0).map viewFile := parseChunkList_blocks 0 (f0 :: fs0) hgood
  show ((parseDiffPre _).filter _).map viewFile = _
  rw [hpre]
  exact filter_views _ (f0 :: fs0) hviews
    (fun f hf => ⟨(hfacts f hf).2.2.1, (hfacts f hf).2.2.2.1⟩)

/-- A well-formed two-path diff text: the C3 witness input. -/
def rawC3 : Str := strOf "diff --git a/f.txt b/f.txt\nindex 0000000..1111111 100644\n--- a/f.txt\n+++ b/f.txt\n@@ -1,2 +1,2 @@ ctx\n line1\n-old\n+new\n"

/-- C3: round trip — for every diff text whose parse is a good model
(all five path fields present with the builder's `a/`-`b/` shapes, no
emitted line colliding with another header class, nonempty hunks: the
formal reading of "no unsupported decorations"), rebuilding a patch from
all hunk ids of the parse and re-parsing the result reproduces the same
file paths, metadata lines, hunk header lines and hunk line contents in
the same order. -/
theorem claim_C3_round_trip (d : Str) (hg : GoodFds (parseDiff d) = true) :
    (parseDiff (buildPatchFromHunks (parseDiff d) (allHunkIds (parseDiff d)))).map viewFile
      = (parseDiff d).map viewFile :=
  roundTrip_model (parseDiff d) hg

/-- Witness for C3: a concrete one-file diff with metadata and context
text satisfies the goodness hypothesis, and its views round-trip. -/
theorem claim_C3_round_trip_witness :
    GoodFds (parseDiff rawC3) = true
    ∧ (parseDiff (buildPatchFromHunks (parseDiff rawC3)
          (allHunkIds (parseDiff rawC3)))).map viewFile
      = (parseDiff rawC3).map viewFile :=
  ⟨rfl, claim_C3_round_trip rawC3 rfl⟩
